import Mathlib

/-
Verification development for the balance and settlement engine of
src/routes/events.route.ts (routes GET /:eventId/balances and
GET /:eventId/settlements).

Modelling conventions:
- JS numbers are idealised as exact rationals.
- A JS object used as a map (the `balances` record) is an insertion-ordered
  association list: assignment to an existing key updates it in place,
  assignment to a fresh key appends it at the end.
- Reading a missing key yields `undefined`, and arithmetic on `undefined`
  yields NaN; both are modelled by `none` in `Option ℚ` (NaN propagates
  through arithmetic exactly as `Option.map` does, and the comparisons
  `NaN > 0` and `NaN < 0` are false, as in JS).
- `Math.round (x * 100) / 100` is modelled by `jsRound2`, with
  `Math.round x = ⌊x + 1/2⌋` (round half toward positive infinity).
- Participants are represented by their id strings, which is all the
  routes read from them.
-/

namespace Sunio

/-- Balance record: the JS object `balances : Record<string, number>`,
with `none` standing for a NaN value. -/
abbrev BalanceRec := List (String × Option ℚ)

/-- Reading `balances[k]`: the stored value, or `none` when the key is
absent (reading an absent key gives `undefined`, which any arithmetic
turns into NaN, hence also `none`). -/
def getVal : BalanceRec → String → Option ℚ
  | [], _ => none
  | kv :: rest, k => if kv.1 = k then kv.2 else getVal rest k

/-- Key presence test for the JS object. -/
def hasKey : BalanceRec → String → Bool
  | [], _ => false
  | kv :: rest, k => if kv.1 = k then true else hasKey rest k

/-- Writing `balances[k] = v`: update in place when the key exists,
append at the end otherwise (JS object key insertion order). -/
def setVal : BalanceRec → String → Option ℚ → BalanceRec
  | [], k, v => [(k, v)]
  | kv :: rest, k, v => if kv.1 = k then (k, v) :: rest else kv :: setVal rest k v

/-- JS subtraction where the left side may be NaN or undefined. -/
def subNaN (a : Option ℚ) (b : ℚ) : Option ℚ := a.map (fun x => x - b)

/-- JS addition where the left side may be NaN or undefined. -/
def addNaN (a : Option ℚ) (b : ℚ) : Option ℚ := a.map (fun x => x + b)

/-- The fields of an Expense row read by the balance and settlement code. -/
structure Expense where
  payer_id : String
  amount : ℚ
  consumers : List String
deriving DecidableEq

/-- The fields of a Payment row read by the balance and settlement code. -/
structure Payment where
  id : String
  from_participant : String
  to_participant : String
  amount : ℚ
deriving DecidableEq

/-- The Settlement output shape `{from, to, amount, payment_id?}`. The
intermediate `originalSettlements` entries have `payment_id = none`. -/
structure Settlement where
  from_ : String
  to_ : String
  amount : ℚ
  payment_id : Option String
deriving DecidableEq

/-- The initialisation `participants?.forEach(p => balances[p.id] = 0)`. -/
def initBalances (participants : List String) : BalanceRec :=
  participants.foldl (fun b pid => setVal b pid (some 0)) []

/-- One iteration of the expense loop:
`const split = e.amount / e.consumers.length;`
`e.consumers.forEach(cId => balances[cId] -= split);`
`balances[e.payer_id] += e.amount;`. -/
def applyExpense (b : BalanceRec) (e : Expense) : BalanceRec :=
  let split := e.amount / (e.consumers.length : ℚ)
  let b1 := e.consumers.foldl
    (fun acc cId => setVal acc cId (subNaN (getVal acc cId) split)) b
  setVal b1 e.payer_id (addNaN (getVal b1 e.payer_id) e.amount)

/-- One iteration of the payment loop:
`balances[p.from_participant] += Number(p.amount);`
`balances[p.to_participant] -= Number(p.amount);`. -/
def applyPayment (b : BalanceRec) (p : Payment) : BalanceRec :=
  let b1 := setVal b p.from_participant
    (addNaN (getVal b p.from_participant) p.amount)
  setVal b1 p.to_participant (subNaN (getVal b1 p.to_participant) p.amount)

/-- Balances computed from expenses only, as in the first half of both the
balances route and the settlements route. -/
def expenseBalances (participants : List String) (expenses : List Expense) :
    BalanceRec :=
  expenses.foldl applyExpense (initBalances participants)

/-- The full balance computation of GET /:eventId/balances: initialise
participants to 0, apply expenses, then apply payments. -/
def computeBalances (participants : List String) (expenses : List Expense)
    (payments : List Payment) : BalanceRec :=
  payments.foldl applyPayment (expenseBalances participants expenses)

/-- The boundary rounding idiom `Math.round(x * 100) / 100`. -/
def jsRound2 (q : ℚ) : ℚ := (⌊q * 100 + 1 / 2⌋ : ℚ) / 100

/-- The JS comparison `v > 0` (false on NaN). -/
def jsGtZero : Option ℚ → Bool
  | some q => decide (0 < q)
  | none => false

/-- The JS comparison `v < 0` (false on NaN). -/
def jsLtZero : Option ℚ → Bool
  | some q => decide (q < 0)
  | none => false

/-- `Object.entries(balances).filter(([_, v]) => v > 0)`; entries that
pass the comparison are genuine numbers, so their values are unwrapped. -/
def positiveEntries (m : BalanceRec) : List (String × ℚ) :=
  (m.filter (fun kv => jsGtZero kv.2)).map (fun kv => (kv.1, kv.2.getD 0))

/-- `Object.entries(balances).filter(([_, v]) => v < 0)`. -/
def negativeEntries (m : BalanceRec) : List (String × ℚ) :=
  (m.filter (fun kv => jsLtZero kv.2)).map (fun kv => (kv.1, kv.2.getD 0))

/-- State of the two-pointer greedy loop: the mutable `positive` and
`negative` arrays, the cursors `i` and `j`, and the settlements pushed
so far. -/
structure GreedyState where
  pos : List (String × ℚ)
  neg : List (String × ℚ)
  i : ℕ
  j : ℕ
  acc : List Settlement
deriving DecidableEq

/-- One iteration of the while loop of the settlements route:
`const amt = Math.min(posAmount, -negAmount);`
push `{from: negId, to: posId, amount: Math.round(amt*100)/100}`,
decrement both remaining values, and advance each cursor whose remaining
absolute value fell below 0.01. -/
def greedyStep (st : GreedyState) : GreedyState :=
  let pe := st.pos.getD st.i ("", 0)
  let qe := st.neg.getD st.j ("", 0)
  let amt := min pe.2 (-qe.2)
  { pos := st.pos.set st.i (pe.1, pe.2 - amt)
    neg := st.neg.set st.j (qe.1, qe.2 + amt)
    i := if |pe.2 - amt| < 1 / 100 then st.i + 1 else st.i
    j := if |qe.2 + amt| < 1 / 100 then st.j + 1 else st.j
    acc := st.acc ++ [⟨qe.1, pe.1, jsRound2 amt, none⟩] }

/-- The while loop `while (i < positive.length && j < negative.length)`,
with explicit fuel (the fuel used below is shown sufficient). -/
def greedyRun : ℕ → GreedyState → GreedyState
  | 0, st => st
  | fuel + 1, st =>
    if st.i < st.pos.length ∧ st.j < st.neg.length then
      greedyRun fuel (greedyStep st)
    else st

/-- The list `originalSettlements` computed by the settlements route from
a balances record (and also the `settlements` list of POST
/:eventId/settle, which runs the same loop). -/
def originalSettlements (m : BalanceRec) : List Settlement :=
  let positive := positiveEntries m
  let negative := negativeEntries m
  (greedyRun (positive.length + negative.length)
    { pos := positive, neg := negative, i := 0, j := 0, acc := [] }).acc

/-- Step 3 of the settlements route, for one original settlement `s`:
filter the payments with the same from/to pair, fold over them creating a
paid settlement of `Math.round(min(remaining, p.amount)*100)/100` whenever
that minimum is positive, and finally push the rounded remainder without a
payment id when more than 0.01 is left. -/
def reconcileStep (payments : List Payment) (acc : List Settlement)
    (s : Settlement) : List Settlement :=
  let relatedPayments := payments.filter
    (fun p => decide (p.from_participant = s.from_) &&
      decide (p.to_participant = s.to_))
  let out := relatedPayments.foldl
    (fun (st : List Settlement × ℚ) p =>
      let paidAmount := min st.2 p.amount
      if 0 < paidAmount then
        (st.1 ++ [⟨s.from_, s.to_, jsRound2 paidAmount, some p.id⟩],
          st.2 - paidAmount)
      else st)
    (acc, s.amount)
  if 1 / 100 < out.2 then out.1 ++ [⟨s.from_, s.to_, jsRound2 out.2, none⟩]
  else out.1

/-- The full payment-matching pass of the settlements route. -/
def reconcile (suggestions : List Settlement) (payments : List Payment) :
    List Settlement :=
  suggestions.foldl (reconcileStep payments) []

/-- The settlements list returned by GET /:eventId/settlements: greedy
suggestions over expense-only balances, then payment matching. -/
def settlementsRoute (participants : List String) (expenses : List Expense)
    (payments : List Payment) : List Settlement :=
  reconcile (originalSettlements (expenseBalances participants expenses))
    payments

/-- Modelled from the spec: the Policy A reconciliation step exactly as
worded in section 4.5, used only to compare with `reconcileStep` above.
For each suggested transaction, matching recorded payments between the
same from/to pair are consumed in payment order, one Settlement per
consumed payment with amount `min(remaining, payment amount)` (unrounded,
as the wording states), and a final Settlement without a payment
reference for any remainder above the 0.01 threshold. -/
def reconcileSpecStep (payments : List Payment) (acc : List Settlement)
    (s : Settlement) : List Settlement :=
  let relatedPayments := payments.filter
    (fun p => decide (p.from_participant = s.from_) &&
      decide (p.to_participant = s.to_))
  let out := relatedPayments.foldl
    (fun (st : List Settlement × ℚ) p =>
      let consumed := min st.2 p.amount
      if 0 < consumed then
        (st.1 ++ [⟨s.from_, s.to_, consumed, some p.id⟩], st.2 - consumed)
      else st)
    (acc, s.amount)
  if 1 / 100 < out.2 then out.1 ++ [⟨s.from_, s.to_, out.2, none⟩]
  else out.1

/-- Modelled from the spec: Policy A reconciliation over all suggested
transactions. -/
def reconcileSpec (suggestions : List Settlement) (payments : List Payment) :
    List Settlement :=
  suggestions.foldl (reconcileSpecStep payments) []

/-- Applying one Settlement to a balance assignment, in the sense used by
the spec: debit `from` (its negative balance rises by the amount) and
credit `to` (its positive balance falls by the amount). -/
def applySettlement (bal : String → ℚ) (s : Settlement) : String → ℚ :=
  fun pid =>
    if pid = s.from_ then bal pid + s.amount
    else if pid = s.to_ then bal pid - s.amount
    else bal pid

/-- Applying a list of Settlements in order. -/
def applyAll (bal : String → ℚ) (ss : List Settlement) : String → ℚ :=
  ss.foldl applySettlement bal

/-- The numeric balance of a participant in a record (0 when absent,
which only matters for ids carrying no balance at all). -/
def balFun (m : BalanceRec) (pid : String) : ℚ := (getVal m pid).getD 0

/-- Sum of all values of a balance record (NaN values count as 0; the
zero-sum claims only concern records without NaN). -/
def totalBal (m : BalanceRec) : ℚ := (m.map (fun kv => kv.2.getD 0)).sum

/-- Sum of the amounts of the settlements that carry a reference to the
given payment id. -/
def refSum (ss : List Settlement) (pid : String) : ℚ :=
  ((ss.filter (fun s => decide (s.payment_id = some pid))).map
    Settlement.amount).sum

/-- A rational is an exact two-decimal (minor-unit) amount: the boundary
rounding leaves it unchanged. ``isCent_iff`` below gives the k/100 form. -/
def IsCent (q : ℚ) : Prop := jsRound2 q = q

/-- A record value that is a genuine number (not NaN) and an exact
two-decimal amount. -/
def CentVal (v : Option ℚ) : Prop := v.isSome = true ∧ IsCent (v.getD 0)

/-- Keys of a balance record, in insertion order. -/
def keysOf (m : BalanceRec) : List String := m.map Prod.fst

/-- Lookup in a plain entry list, as produced by Object.entries. -/
def valOf : List (String × ℚ) → String → Option ℚ
  | [], _ => none
  | kv :: rest, k => if kv.1 = k then some kv.2 else valOf rest k

/-- The remaining balance a state assigns to an id: its entry in the
positive list, else in the negative list, else the ambient value. -/
def stVal (f0 : String → ℚ) (st : GreedyState) (pid : String) : ℚ :=
  match valOf st.pos pid with
  | some v => v
  | none =>
    match valOf st.neg pid with
    | some v => v
    | none => f0 pid

section RecordLemmas

theorem getVal_setVal_self (m : BalanceRec) (k : String) (v : Option ℚ) :
    getVal (setVal m k v) k = v := by
  induction m with
  | nil => simp [setVal, getVal]
  | cons kv rest ih =>
    by_cases h : kv.1 = k
    · simp [setVal, h, getVal]
    · simp [setVal, h, getVal, ih]

theorem getVal_setVal_ne (m : BalanceRec) {k k2 : String} (v : Option ℚ)
    (h : k ≠ k2) : getVal (setVal m k v) k2 = getVal m k2 := by
  induction m with
  | nil => simp [setVal, getVal, h]
  | cons kv rest ih =>
    by_cases h1 : kv.1 = k
    · subst h1
      simp [setVal, getVal, h]
    · simp only [setVal, if_neg h1, getVal]
      by_cases h2 : kv.1 = k2
      · simp [h2]
      · simp [h2, ih]

theorem hasKey_setVal_self (m : BalanceRec) (k : String) (v : Option ℚ) :
    hasKey (setVal m k v) k = true := by
  induction m with
  | nil => simp [setVal, hasKey]
  | cons kv rest ih =>
    by_cases h : kv.1 = k
    · simp [setVal, h, hasKey]
    · simp [setVal, h, hasKey, ih]

theorem hasKey_setVal_ne (m : BalanceRec) {k k2 : String} (v : Option ℚ)
    (h : k ≠ k2) : hasKey (setVal m k v) k2 = hasKey m k2 := by
  induction m with
  | nil => simp [setVal, hasKey, h]
  | cons kv rest ih =>
    by_cases h1 : kv.1 = k
    · subst h1
      simp [setVal, hasKey, h]
    · simp only [setVal, if_neg h1, hasKey]
      by_cases h2 : kv.1 = k2
      · simp [h2]
      · simp [h2, ih]

theorem hasKey_setVal_mono (m : BalanceRec) {k k2 : String} (v : Option ℚ)
    (h : hasKey m k2 = true) : hasKey (setVal m k v) k2 = true := by
  by_cases hk : k = k2
  · exact hk ▸ hasKey_setVal_self m k v
  · rw [hasKey_setVal_ne m v hk]; exact h

theorem getVal_eq_none_of_not_hasKey {m : BalanceRec} {k : String}
    (h : hasKey m k = false) : getVal m k = none := by
  induction m with
  | nil => simp [getVal]
  | cons kv rest ih =>
    simp only [hasKey] at h
    by_cases h1 : kv.1 = k
    · simp [h1] at h
    · simp only [getVal, if_neg h1]
      exact ih (by simpa [h1] using h)

theorem hasKey_iff_mem_keysOf {m : BalanceRec} {k : String} :
    hasKey m k = true ↔ k ∈ keysOf m := by
  induction m with
  | nil => simp [hasKey, keysOf]
  | cons kv rest ih =>
    by_cases h : kv.1 = k
    · simp [hasKey, keysOf, h]
    · simpa [hasKey, keysOf, h, Ne.symm h] using ih

theorem keysOf_setVal_hasKey (m : BalanceRec) {k : String} (v : Option ℚ)
    (h : hasKey m k = true) : keysOf (setVal m k v) = keysOf m := by
  induction m with
  | nil => simp [hasKey] at h
  | cons kv rest ih =>
    by_cases h1 : kv.1 = k
    · simp [setVal, h1, keysOf]
    · simp only [hasKey, if_neg h1] at h
      have hrec := ih h
      simp only [keysOf] at hrec ⊢
      simp [setVal, if_neg h1, hrec]

theorem keysOf_setVal_fresh (m : BalanceRec) {k : String} (v : Option ℚ)
    (h : hasKey m k = false) : keysOf (setVal m k v) = keysOf m ++ [k] := by
  induction m with
  | nil => simp [setVal, keysOf]
  | cons kv rest ih =>
    simp only [hasKey] at h
    by_cases h1 : kv.1 = k
    · simp [h1] at h
    · have hrec := ih (by simpa [h1] using h)
      simp only [keysOf] at hrec ⊢
      simp [setVal, if_neg h1, hrec]

theorem nodup_keysOf_setVal (m : BalanceRec) (k : String) (v : Option ℚ)
    (h : (keysOf m).Nodup) : (keysOf (setVal m k v)).Nodup := by
  by_cases hk : hasKey m k = true
  · rw [keysOf_setVal_hasKey m v hk]; exact h
  · rw [keysOf_setVal_fresh m v (by simpa using hk)]
    refine List.Nodup.append h (by simp) ?_
    intro a ha hb
    simp only [List.mem_singleton] at hb
    exact hk (hasKey_iff_mem_keysOf.2 (hb ▸ ha))

theorem mem_setVal {m : BalanceRec} {k : String} {v : Option ℚ}
    {kv2 : String × Option ℚ} (h : kv2 ∈ setVal m k v) :
    kv2 ∈ m ∨ kv2 = (k, v) := by
  induction m with
  | nil => simpa [setVal] using h
  | cons kv rest ih =>
    by_cases h1 : kv.1 = k
    · simp only [setVal, if_pos h1, List.mem_cons] at h
      rcases h with h | h
      · exact Or.inr h
      · exact Or.inl (List.mem_cons_of_mem _ h)
    · simp only [setVal, if_neg h1, List.mem_cons] at h
      rcases h with h | h
      · exact Or.inl (h ▸ List.mem_cons_self _ _)
      · rcases ih h with h2 | h2
        · exact Or.inl (List.mem_cons_of_mem _ h2)
        · exact Or.inr h2

theorem getVal_of_all {P : Option ℚ → Prop} {m : BalanceRec} {k : String}
    (hall : ∀ kv ∈ m, P kv.2) (h : hasKey m k = true) : P (getVal m k) := by
  induction m with
  | nil => simp [hasKey] at h
  | cons kv rest ih =>
    by_cases h1 : kv.1 = k
    · simpa [getVal, h1] using hall kv (List.mem_cons_self _ _)
    · simp only [getVal, if_neg h1]
      exact ih (fun x hx => hall x (List.mem_cons_of_mem _ hx))
        (by simpa [hasKey, h1] using h)

theorem totalBal_nil : totalBal [] = 0 := rfl

theorem totalBal_cons (kv : String × Option ℚ) (m : BalanceRec) :
    totalBal (kv :: m) = kv.2.getD 0 + totalBal m := by
  simp [totalBal]

theorem totalBal_setVal_some {m : BalanceRec} {k : String} {a : ℚ} (b : ℚ)
    (h : getVal m k = some a) :
    totalBal (setVal m k (some b)) = totalBal m - a + b := by
  induction m with
  | nil => simp [getVal] at h
  | cons kv rest ih =>
    by_cases h1 : kv.1 = k
    · simp only [getVal, if_pos h1] at h
      simp only [setVal, if_pos h1, totalBal_cons, h, Option.getD_some]
      ring
    · simp only [getVal, if_neg h1] at h
      simp only [setVal, if_neg h1, totalBal_cons, ih h]
      ring

theorem totalBal_setVal_fresh {m : BalanceRec} {k : String} (v : Option ℚ)
    (h : hasKey m k = false) :
    totalBal (setVal m k v) = totalBal m + v.getD 0 := by
  induction m with
  | nil => simp [setVal, totalBal]
  | cons kv rest ih =>
    simp only [hasKey] at h
    by_cases h1 : kv.1 = k
    · simp [h1] at h
    · simp only [setVal, if_neg h1, totalBal_cons,
        ih (by simpa [h1] using h)]
      ring

end RecordLemmas

section CentLemmas

theorem floor_intCast_add_half (k : ℤ) : ⌊(k : ℚ) + 1 / 2⌋ = k := by
  rw [add_comm, Int.floor_add_int]
  norm_num

theorem isCent_iff {q : ℚ} : IsCent q ↔ ∃ k : ℤ, q = (k : ℚ) / 100 := by
  constructor
  · intro h
    exact ⟨⌊q * 100 + 1 / 2⌋, h.symm⟩
  · rintro ⟨k, rfl⟩
    show jsRound2 _ = _
    rw [jsRound2, div_mul_cancel₀ (b := (100 : ℚ)) _ (by norm_num),
      floor_intCast_add_half]

theorem isCent_jsRound2 (q : ℚ) : IsCent (jsRound2 q) :=
  isCent_iff.2 ⟨⌊q * 100 + 1 / 2⌋, rfl⟩

theorem IsCent.zero : IsCent (0 : ℚ) := isCent_iff.2 ⟨0, by norm_num⟩

theorem IsCent.add {a b : ℚ} (ha : IsCent a) (hb : IsCent b) :
    IsCent (a + b) := by
  obtain ⟨k1, rfl⟩ := isCent_iff.1 ha
  obtain ⟨k2, rfl⟩ := isCent_iff.1 hb
  exact isCent_iff.2 ⟨k1 + k2, by push_cast; ring⟩

theorem IsCent.sub {a b : ℚ} (ha : IsCent a) (hb : IsCent b) :
    IsCent (a - b) := by
  obtain ⟨k1, rfl⟩ := isCent_iff.1 ha
  obtain ⟨k2, rfl⟩ := isCent_iff.1 hb
  exact isCent_iff.2 ⟨k1 - k2, by push_cast; ring⟩

theorem IsCent.neg {a : ℚ} (ha : IsCent a) : IsCent (-a) := by
  obtain ⟨k1, rfl⟩ := isCent_iff.1 ha
  exact isCent_iff.2 ⟨-k1, by push_cast; ring⟩

theorem IsCent.min {a b : ℚ} (ha : IsCent a) (hb : IsCent b) :
    IsCent (min a b) := by
  rcases min_choice a b with h | h <;> rw [h]
  · exact ha
  · exact hb

theorem IsCent.eq_zero_of_nonneg_small {q : ℚ} (h : IsCent q) (h0 : 0 ≤ q)
    (h1 : q < 1 / 100) : q = 0 := by
  obtain ⟨k, rfl⟩ := isCent_iff.1 h
  have hk0 : (0 : ℚ) ≤ k := by
    have := mul_le_mul_of_nonneg_right h0 (by norm_num : (0:ℚ) ≤ 100)
    simpa [div_mul_cancel₀] using this
  have hk1 : (k : ℚ) < 1 := by
    have := mul_lt_mul_of_pos_right h1 (by norm_num : (0:ℚ) < 100)
    simpa [div_mul_cancel₀] using this
  have : k = 0 := by
    have h2 : (0 : ℤ) ≤ k := by exact_mod_cast hk0
    have h3 : k < 1 := by exact_mod_cast hk1
    omega
  simp [this]

theorem IsCent.hundredth_le_of_pos {q : ℚ} (h : IsCent q) (h0 : 0 < q) :
    1 / 100 ≤ q := by
  by_contra hlt
  exact absurd (h.eq_zero_of_nonneg_small h0.le (lt_of_not_le hlt))
    (ne_of_gt h0)

theorem IsCent.abs_lt_hundredth_iff {q : ℚ} (h : IsCent q) :
    |q| < 1 / 100 ↔ q = 0 := by
  constructor
  · intro habs
    rcases le_or_lt 0 q with h0 | h0
    · exact h.eq_zero_of_nonneg_small h0 (by rwa [abs_of_nonneg h0] at habs)
    · have := h.neg.eq_zero_of_nonneg_small (by linarith)
        (by rwa [abs_of_neg h0] at habs)
      linarith
  · rintro rfl
    norm_num

end CentLemmas

section BalanceLemmas

/-- Snapshot well-formedness from the data model of the spec: every id
referenced by an expense or payment is a known participant, and consumer
lists are non-empty. -/
def RefsKnown (parts : List String) (exps : List Expense)
    (pays : List Payment) : Prop :=
  (∀ e ∈ exps, e.payer_id ∈ parts ∧ e.consumers ≠ [] ∧
    ∀ c ∈ e.consumers, c ∈ parts) ∧
  ∀ p ∈ pays, p.from_participant ∈ parts ∧ p.to_participant ∈ parts

/-- Invariant of the balance fold on well-formed snapshots: every known
participant has a numeric entry, and all keys are known participants. -/
def Good (parts : List String) (b : BalanceRec) : Prop :=
  (∀ p ∈ parts, ∃ q : ℚ, getVal b p = some q) ∧ ∀ kv ∈ b, kv.1 ∈ parts

theorem hasKey_of_mem {m : BalanceRec} {kv : String × Option ℚ}
    (h : kv ∈ m) : hasKey m kv.1 = true := by
  induction m with
  | nil => simp at h
  | cons kv2 rest ih =>
    rcases List.mem_cons.1 h with h1 | h1
    · simp [hasKey, h1]
    · by_cases h2 : kv2.1 = kv.1
      · simp [hasKey, h2]
      · simp [hasKey, h2, ih h1]

theorem initFold_all_zero (l : List String) (b : BalanceRec)
    (hb : ∀ kv ∈ b, kv.2 = some 0) :
    ∀ kv ∈ l.foldl (fun b pid => setVal b pid (some 0)) b, kv.2 = some 0 := by
  induction l generalizing b with
  | nil => exact hb
  | cons p l ih =>
    refine ih _ ?_
    intro kv hkv
    rcases mem_setVal hkv with h | h
    · exact hb kv h
    · simp [h]

theorem initFold_hasKey (l : List String) (b : BalanceRec) (k : String) :
    hasKey (l.foldl (fun b pid => setVal b pid (some 0)) b) k = true ↔
      k ∈ l ∨ hasKey b k = true := by
  induction l generalizing b with
  | nil => simp
  | cons p l ih =>
    simp only [List.foldl_cons, ih, List.mem_cons]
    by_cases hp : p = k
    · subst hp
      simp [hasKey_setVal_self]
    · rw [hasKey_setVal_ne _ _ hp]
      constructor
      · rintro (h | h)
        · exact Or.inl (Or.inr h)
        · exact Or.inr h
      · rintro ((h | h) | h)
        · exact absurd h.symm hp
        · exact Or.inl h
        · exact Or.inr h

theorem init_all_zero (parts : List String) :
    ∀ kv ∈ initBalances parts, kv.2 = some 0 :=
  initFold_all_zero parts [] (by simp)

theorem init_hasKey (parts : List String) (k : String) :
    hasKey (initBalances parts) k = true ↔ k ∈ parts := by
  simpa [hasKey] using initFold_hasKey parts [] k

theorem getVal_init {parts : List String} {pid : String} (h : pid ∈ parts) :
    getVal (initBalances parts) pid = some 0 :=
  getVal_of_all (P := fun v => v = some 0) (init_all_zero parts)
    ((init_hasKey parts pid).2 h)

theorem totalBal_of_all_zero {m : BalanceRec}
    (h : ∀ kv ∈ m, kv.2 = some 0) : totalBal m = 0 := by
  induction m with
  | nil => rfl
  | cons kv rest ih =>
    rw [totalBal_cons, h kv (List.mem_cons_self _ _),
      ih (fun x hx => h x (List.mem_cons_of_mem _ hx))]
    simp

theorem totalBal_init (parts : List String) :
    totalBal (initBalances parts) = 0 :=
  totalBal_of_all_zero (init_all_zero parts)

theorem good_init (parts : List String) : Good parts (initBalances parts) := by
  constructor
  · intro p hp
    exact ⟨0, getVal_init hp⟩
  · intro kv hkv
    exact (init_hasKey parts kv.1).1 (hasKey_of_mem hkv)

theorem consFold_getVal_count (split : ℚ) (cs : List String) (b : BalanceRec)
    (k : String) :
    getVal (cs.foldl
        (fun acc cId => setVal acc cId (subNaN (getVal acc cId) split)) b) k =
      (getVal b k).map (fun x => x - (cs.count k : ℚ) * split) := by
  induction cs generalizing b with
  | nil => cases hv : getVal b k <;> simp [hv]
  | cons c cs ih =>
    rw [List.foldl_cons, ih]
    by_cases hc : c = k
    · subst hc
      rw [getVal_setVal_self]
      cases hv : getVal b c with
      | none => simp [subNaN, hv]
      | some a =>
        have hcount : (c :: cs).count c = cs.count c + 1 := by
          simp [List.count_cons]
        simp only [subNaN, hv, Option.map_some', hcount]
        congr 1
        push_cast
        ring
    · rw [getVal_setVal_ne _ _ hc]
      have : (c :: cs).count k = cs.count k := by
        simp [List.count_cons, hc]
      rw [this]

theorem consFold_spec (parts : List String) (split : ℚ) (cs : List String)
    (b : BalanceRec) (hcs : ∀ c ∈ cs, c ∈ parts) (hb : Good parts b) :
    Good parts (cs.foldl
      (fun acc cId => setVal acc cId (subNaN (getVal acc cId) split)) b) ∧
    totalBal (cs.foldl
        (fun acc cId => setVal acc cId (subNaN (getVal acc cId) split)) b) =
      totalBal b - (cs.length : ℚ) * split := by
  induction cs generalizing b with
  | nil => simpa using hb
  | cons c cs ih =>
    obtain ⟨a, ha⟩ := hb.1 c (hcs c (List.mem_cons_self _ _))
    have hgood : Good parts (setVal b c (subNaN (getVal b c) split)) := by
      constructor
      · intro p hp
        by_cases hpc : c = p
        · subst hpc
          exact ⟨a - split, by rw [getVal_setVal_self, ha]; rfl⟩
        · rw [getVal_setVal_ne _ _ hpc]
          exact hb.1 p hp
      · intro kv hkv
        rcases mem_setVal hkv with h | h
        · exact hb.2 kv h
        · rw [h]
          exact hcs c (List.mem_cons_self _ _)
    have htot : totalBal (setVal b c (subNaN (getVal b c) split)) =
        totalBal b - split := by
      rw [ha]
      have : subNaN (some a) split = some (a - split) := rfl
      rw [this, totalBal_setVal_some _ ha]
      ring
    obtain ⟨h1, h2⟩ := ih _ (fun x hx => hcs x (List.mem_cons_of_mem _ hx))
      hgood
    refine ⟨h1, ?_⟩
    rw [List.foldl_cons, h2, htot]
    push_cast [List.length_cons]
    ring

theorem applyExpense_spec (parts : List String) (e : Expense)
    (b : BalanceRec) (hp : e.payer_id ∈ parts) (hne : e.consumers ≠ [])
    (hc : ∀ c ∈ e.consumers, c ∈ parts) (hb : Good parts b) :
    Good parts (applyExpense b e) ∧
      totalBal (applyExpense b e) = totalBal b := by
  obtain ⟨h1, h2⟩ := consFold_spec parts (e.amount / (e.consumers.length : ℚ))
    e.consumers b hc hb
  set b1 := e.consumers.foldl
    (fun acc cId => setVal acc cId
      (subNaN (getVal acc cId) (e.amount / (e.consumers.length : ℚ)))) b
  obtain ⟨a, ha⟩ := h1.1 e.payer_id hp
  have hlen : (e.consumers.length : ℚ) ≠ 0 := by
    have : e.consumers.length ≠ 0 := by
      simpa [List.length_eq_zero] using hne
    exact_mod_cast this
  constructor
  · constructor
    · intro p hpp
      by_cases hpe : e.payer_id = p
      · subst hpe
        exact ⟨a + e.amount, by
          show getVal (setVal b1 e.payer_id _) e.payer_id = _
          rw [getVal_setVal_self, ha]; rfl⟩
      · show ∃ q, getVal (setVal b1 e.payer_id _) p = some q
        rw [getVal_setVal_ne _ _ hpe]
        exact h1.1 p hpp
    · intro kv hkv
      rcases mem_setVal hkv with h | h
      · exact h1.2 kv h
      · rw [h]; exact hp
  · show totalBal (setVal b1 e.payer_id (addNaN (getVal b1 e.payer_id) e.amount)) = _
    rw [ha]
    have : addNaN (some a) e.amount = some (a + e.amount) := rfl
    rw [this, totalBal_setVal_some _ ha, h2]
    field_simp
    ring

theorem applyPayment_spec (parts : List String) (p : Payment)
    (b : BalanceRec) (hf : p.from_participant ∈ parts)
    (ht : p.to_participant ∈ parts) (hb : Good parts b) :
    Good parts (applyPayment b p) ∧
      totalBal (applyPayment b p) = totalBal b := by
  obtain ⟨a, ha⟩ := hb.1 p.from_participant hf
  set b1 := setVal b p.from_participant
    (addNaN (getVal b p.from_participant) p.amount) with hb1
  have hgood1 : Good parts b1 := by
    constructor
    · intro q hq
      by_cases hqp : p.from_participant = q
      · subst hqp
        exact ⟨a + p.amount, by rw [hb1, getVal_setVal_self, ha]; rfl⟩
      · rw [hb1, getVal_setVal_ne _ _ hqp]
        exact hb.1 q hq
    · intro kv hkv
      rcases mem_setVal (hb1 ▸ hkv) with h | h
      · exact hb.2 kv h
      · rw [h]; exact hf
  have htot1 : totalBal b1 = totalBal b + p.amount := by
    rw [hb1, ha]
    have : addNaN (some a) p.amount = some (a + p.amount) := rfl
    rw [this, totalBal_setVal_some _ ha]
    ring
  obtain ⟨a2, ha2⟩ := hgood1.1 p.to_participant ht
  constructor
  · constructor
    · intro q hq
      by_cases hqp : p.to_participant = q
      · subst hqp
        exact ⟨a2 - p.amount, by
          show getVal (setVal b1 p.to_participant _) p.to_participant = _
          rw [getVal_setVal_self, ha2]; rfl⟩
      · show ∃ z, getVal (setVal b1 p.to_participant _) q = some z
        rw [getVal_setVal_ne _ _ hqp]
        exact hgood1.1 q hq
    · intro kv hkv
      rcases mem_setVal hkv with h | h
      · exact hgood1.2 kv h
      · rw [h]; exact ht
  · show totalBal (setVal b1 p.to_participant
      (subNaN (getVal b1 p.to_participant) p.amount)) = _
    rw [ha2]
    have : subNaN (some a2) p.amount = some (a2 - p.amount) := rfl
    rw [this, totalBal_setVal_some _ ha2, htot1]
    ring

theorem expenseFold_spec (parts : List String) (es : List Expense)
    (b : BalanceRec)
    (hes : ∀ e ∈ es, e.payer_id ∈ parts ∧ e.consumers ≠ [] ∧
      ∀ c ∈ e.consumers, c ∈ parts)
    (hb : Good parts b) :
    Good parts (es.foldl applyExpense b) ∧
      totalBal (es.foldl applyExpense b) = totalBal b := by
  induction es generalizing b with
  | nil => simpa using hb
  | cons e es ih =>
    obtain ⟨hp, hne, hc⟩ := hes e (List.mem_cons_self _ _)
    obtain ⟨h1, h2⟩ := applyExpense_spec parts e b hp hne hc hb
    obtain ⟨h3, h4⟩ := ih _ (fun x hx => hes x (List.mem_cons_of_mem _ hx)) h1
    exact ⟨h3, by rw [List.foldl_cons, h4, h2]⟩

theorem paymentFold_spec (parts : List String) (ps : List Payment)
    (b : BalanceRec)
    (hps : ∀ p ∈ ps, p.from_participant ∈ parts ∧ p.to_participant ∈ parts)
    (hb : Good parts b) :
    Good parts (ps.foldl applyPayment b) ∧
      totalBal (ps.foldl applyPayment b) = totalBal b := by
  induction ps generalizing b with
  | nil => simpa using hb
  | cons p ps ih =>
    obtain ⟨hf, ht⟩ := hps p (List.mem_cons_self _ _)
    obtain ⟨h1, h2⟩ := applyPayment_spec parts p b hf ht hb
    obtain ⟨h3, h4⟩ := ih _ (fun x hx => hps x (List.mem_cons_of_mem _ hx)) h1
    exact ⟨h3, by rw [List.foldl_cons, h4, h2]⟩

theorem computeBalances_spec (parts : List String) (exps : List Expense)
    (pays : List Payment) (h : RefsKnown parts exps pays) :
    Good parts (computeBalances parts exps pays) ∧
      totalBal (computeBalances parts exps pays) = 0 := by
  obtain ⟨h1, h2⟩ := expenseFold_spec parts exps (initBalances parts) h.1
    (good_init parts)
  obtain ⟨h3, h4⟩ := paymentFold_spec parts pays _ h.2 h1
  refine ⟨h3, ?_⟩
  calc totalBal (computeBalances parts exps pays)
      = totalBal (List.foldl applyExpense (initBalances parts) exps) := h4
    _ = totalBal (initBalances parts) := h2
    _ = 0 := totalBal_init parts

end BalanceLemmas

section UntouchedLemmas

theorem consFold_getVal_not_mem (split : ℚ) (cs : List String)
    (b : BalanceRec) {k : String} (h : k ∉ cs) :
    getVal (cs.foldl
        (fun acc cId => setVal acc cId (subNaN (getVal acc cId) split)) b) k =
      getVal b k := by
  rw [consFold_getVal_count]
  have hc : cs.count k = 0 := by
    simp [List.count_eq_zero, h]
  rw [hc]
  cases hv : getVal b k <;> simp [hv]

theorem applyExpense_getVal_untouched (b : BalanceRec) (e : Expense)
    {k : String} (h1 : k ≠ e.payer_id) (h2 : k ∉ e.consumers) :
    getVal (applyExpense b e) k = getVal b k := by
  show getVal (setVal _ e.payer_id _) k = _
  rw [getVal_setVal_ne _ _ (Ne.symm h1)]
  exact consFold_getVal_not_mem _ _ _ h2

theorem applyPayment_getVal_untouched (b : BalanceRec) (p : Payment)
    {k : String} (h1 : k ≠ p.from_participant) (h2 : k ≠ p.to_participant) :
    getVal (applyPayment b p) k = getVal b k := by
  show getVal (setVal _ p.to_participant _) k = _
  rw [getVal_setVal_ne _ _ (Ne.symm h2), getVal_setVal_ne _ _ (Ne.symm h1)]

theorem expenseFold_getVal_untouched (es : List Expense) (b : BalanceRec)
    {k : String} (h : ∀ e ∈ es, k ≠ e.payer_id ∧ k ∉ e.consumers) :
    getVal (es.foldl applyExpense b) k = getVal b k := by
  induction es generalizing b with
  | nil => rfl
  | cons e es ih =>
    rw [List.foldl_cons, ih _ (fun x hx => h x (List.mem_cons_of_mem _ hx))]
    exact applyExpense_getVal_untouched b e
      (h e (List.mem_cons_self _ _)).1 (h e (List.mem_cons_self _ _)).2

theorem paymentFold_getVal_untouched (ps : List Payment) (b : BalanceRec)
    {k : String}
    (h : ∀ p ∈ ps, k ≠ p.from_participant ∧ k ≠ p.to_participant) :
    getVal (ps.foldl applyPayment b) k = getVal b k := by
  induction ps generalizing b with
  | nil => rfl
  | cons p ps ih =>
    rw [List.foldl_cons, ih _ (fun x hx => h x (List.mem_cons_of_mem _ hx))]
    exact applyPayment_getVal_untouched b p
      (h p (List.mem_cons_self _ _)).1 (h p (List.mem_cons_self _ _)).2

theorem expenseBalances_single (parts : List String) (e : Expense)
    {c : String} (hc : c ∈ parts) :
    getVal (expenseBalances parts [e]) c =
      some ((if c = e.payer_id then e.amount else 0) -
        (e.consumers.count c : ℚ) *
          (e.amount / (e.consumers.length : ℚ))) := by
  show getVal (applyExpense (initBalances parts) e) c = _
  show getVal (setVal _ e.payer_id _) c = _
  by_cases hpc : c = e.payer_id
  · subst hpc
    rw [getVal_setVal_self, consFold_getVal_count, getVal_init hc]
    simp [addNaN]
    ring
  · rw [getVal_setVal_ne _ _ (Ne.symm hpc), consFold_getVal_count,
      getVal_init hc]
    simp [hpc]

theorem hasKey_consFold_mono (split : ℚ) (cs : List String) (b : BalanceRec)
    {k : String} (h : hasKey b k = true) :
    hasKey (cs.foldl
      (fun acc cId => setVal acc cId (subNaN (getVal acc cId) split)) b) k =
      true := by
  induction cs generalizing b with
  | nil => exact h
  | cons c cs ih => exact ih _ (hasKey_setVal_mono _ _ h)

theorem hasKey_applyExpense_mono (b : BalanceRec) (e : Expense) {k : String}
    (h : hasKey b k = true) : hasKey (applyExpense b e) k = true :=
  hasKey_setVal_mono _ _ (hasKey_consFold_mono _ _ _ h)

theorem hasKey_applyPayment_mono (b : BalanceRec) (p : Payment) {k : String}
    (h : hasKey b k = true) : hasKey (applyPayment b p) k = true :=
  hasKey_setVal_mono _ _ (hasKey_setVal_mono _ _ h)

theorem hasKey_expenseFold_mono (es : List Expense) (b : BalanceRec)
    {k : String} (h : hasKey b k = true) :
    hasKey (es.foldl applyExpense b) k = true := by
  induction es generalizing b with
  | nil => exact h
  | cons e es ih => exact ih _ (hasKey_applyExpense_mono _ _ h)

theorem hasKey_paymentFold_mono (ps : List Payment) (b : BalanceRec)
    {k : String} (h : hasKey b k = true) :
    hasKey (ps.foldl applyPayment b) k = true := by
  induction ps generalizing b with
  | nil => exact h
  | cons p ps ih => exact ih _ (hasKey_applyPayment_mono _ _ h)

theorem hasKey_consFold_of_mem (split : ℚ) (cs : List String)
    (b : BalanceRec) {k : String} (h : k ∈ cs) :
    hasKey (cs.foldl
      (fun acc cId => setVal acc cId (subNaN (getVal acc cId) split)) b) k =
      true := by
  induction cs generalizing b with
  | nil => simp at h
  | cons c cs ih =>
    rcases List.mem_cons.1 h with h1 | h1
    · subst h1
      exact hasKey_consFold_mono split cs _ (hasKey_setVal_self b _ _)
    · exact ih _ h1

theorem hasKey_applyExpense_of_ref (b : BalanceRec) (e : Expense)
    {k : String} (h : k = e.payer_id ∨ k ∈ e.consumers) :
    hasKey (applyExpense b e) k = true := by
  rcases h with h | h
  · subst h
    exact hasKey_setVal_self _ _ _
  · exact hasKey_setVal_mono _ _ (hasKey_consFold_of_mem _ _ _ h)

theorem hasKey_applyPayment_of_ref (b : BalanceRec) (p : Payment)
    {k : String} (h : k = p.from_participant ∨ k = p.to_participant) :
    hasKey (applyPayment b p) k = true := by
  rcases h with h | h
  · subst h
    exact hasKey_setVal_mono _ _ (hasKey_setVal_self _ _ _)
  · subst h
    exact hasKey_setVal_self _ _ _

theorem getVal_none_consFold (split : ℚ) (cs : List String) (b : BalanceRec)
    {k : String} (h : getVal b k = none) :
    getVal (cs.foldl
      (fun acc cId => setVal acc cId (subNaN (getVal acc cId) split)) b) k =
      none := by
  rw [consFold_getVal_count, h]
  rfl

theorem getVal_none_applyExpense (b : BalanceRec) (e : Expense) {k : String}
    (h : getVal b k = none) : getVal (applyExpense b e) k = none := by
  show getVal (setVal _ e.payer_id _) k = none
  by_cases hpc : e.payer_id = k
  · subst hpc
    rw [getVal_setVal_self, getVal_none_consFold _ _ _ h]
    rfl
  · rw [getVal_setVal_ne _ _ hpc]
    exact getVal_none_consFold _ _ _ h

theorem getVal_none_applyPayment (b : BalanceRec) (p : Payment) {k : String}
    (h : getVal b k = none) : getVal (applyPayment b p) k = none := by
  have h1 : getVal (setVal b p.from_participant
      (addNaN (getVal b p.from_participant) p.amount)) k = none := by
    by_cases hf : p.from_participant = k
    · subst hf
      rw [getVal_setVal_self, h]
      rfl
    · rw [getVal_setVal_ne _ _ hf]
      exact h
  show getVal (setVal _ p.to_participant _) k = none
  by_cases ht : p.to_participant = k
  · subst ht
    rw [getVal_setVal_self, h1]
    rfl
  · rw [getVal_setVal_ne _ _ ht]
    exact h1

theorem getVal_none_expenseFold (es : List Expense) (b : BalanceRec)
    {u : String} (h : getVal b u = none) :
    getVal (es.foldl applyExpense b) u = none := by
  induction es generalizing b with
  | nil => exact h
  | cons e es ih => exact ih _ (getVal_none_applyExpense _ _ h)

theorem getVal_none_paymentFold (ps : List Payment) (b : BalanceRec)
    {u : String} (h : getVal b u = none) :
    getVal (ps.foldl applyPayment b) u = none := by
  induction ps generalizing b with
  | nil => exact h
  | cons p ps ih => exact ih _ (getVal_none_applyPayment _ _ h)

theorem getVal_none_computeBalances (parts : List String) (es : List Expense)
    (ps : List Payment) {u : String} (hu : u ∉ parts) :
    getVal (computeBalances parts es ps) u = none := by
  have h0 : getVal (initBalances parts) u = none := by
    refine getVal_eq_none_of_not_hasKey ?_
    by_contra hk
    exact hu ((init_hasKey parts u).1 (by simpa using hk))
  exact getVal_none_paymentFold ps _ (getVal_none_expenseFold es _ h0)

theorem hasKey_computeBalances_of_ref (parts : List String)
    (es : List Expense) (ps : List Payment) {u : String}
    (h : (∃ e ∈ es, u = e.payer_id ∨ u ∈ e.consumers) ∨
      ∃ p ∈ ps, u = p.from_participant ∨ u = p.to_participant) :
    hasKey (computeBalances parts es ps) u = true := by
  rcases h with ⟨e, he, hu⟩ | ⟨p, hp, hu⟩
  · obtain ⟨l1, l2, rfl⟩ := List.append_of_mem he
    refine hasKey_paymentFold_mono ps _ ?_
    show hasKey ((l1 ++ e :: l2).foldl applyExpense (initBalances parts)) u =
      true
    rw [List.foldl_append, List.foldl_cons]
    exact hasKey_expenseFold_mono l2 _
      (hasKey_applyExpense_of_ref _ _ hu)
  · obtain ⟨l1, l2, rfl⟩ := List.append_of_mem hp
    show hasKey ((l1 ++ p :: l2).foldl applyPayment
      (expenseBalances parts es)) u = true
    rw [List.foldl_append, List.foldl_cons]
    exact hasKey_paymentFold_mono l2 _
      (hasKey_applyPayment_of_ref _ _ hu)

end UntouchedLemmas

section GreedyBasics

theorem getD_of_lt {α : Type} (l : List α) (d : α) {n : ℕ}
    (h : n < l.length) : l.getD n d = l.get ⟨n, h⟩ := by
  simp [List.getD_eq_getElem?_getD, List.getElem?_eq_getElem h]

theorem map_fst_set (l : List (String × ℚ)) {n : ℕ} (h : n < l.length)
    (x : ℚ) :
    (l.set n ((l.get ⟨n, h⟩).1, x)).map Prod.fst = l.map Prod.fst := by
  induction l generalizing n with
  | nil => simp at h
  | cons kv rest ih =>
    cases n with
    | zero => simp
    | succ n =>
      have hn : n < rest.length := Nat.lt_of_succ_lt_succ h
      simp only [List.set, List.map_cons, List.get_cons_succ]
      rw [ih hn]

theorem sum_map_snd_set (l : List (String × ℚ)) {n : ℕ} (h : n < l.length)
    (e : String × ℚ) :
    ((l.set n e).map Prod.snd).sum =
      (l.map Prod.snd).sum - (l.get ⟨n, h⟩).2 + e.2 := by
  induction l generalizing n with
  | nil => simp at h
  | cons kv rest ih =>
    cases n with
    | zero =>
      simp only [List.set, List.map_cons, List.sum_cons, List.get]
      ring
    | succ n =>
      have hn : n < rest.length := Nat.lt_of_succ_lt_succ h
      simp only [List.set, List.map_cons, List.sum_cons, List.get]
      rw [ih hn]
      ring

theorem greedyStep_pos (st : GreedyState) (hi : st.i < st.pos.length)
    (hj : st.j < st.neg.length) :
    (greedyStep st).pos = st.pos.set st.i ((st.pos.get ⟨st.i, hi⟩).1,
      (st.pos.get ⟨st.i, hi⟩).2 -
        min (st.pos.get ⟨st.i, hi⟩).2 (-(st.neg.get ⟨st.j, hj⟩).2)) := by
  simp [greedyStep, List.getElem?_eq_getElem hi, List.getElem?_eq_getElem hj]

theorem greedyStep_neg (st : GreedyState) (hi : st.i < st.pos.length)
    (hj : st.j < st.neg.length) :
    (greedyStep st).neg = st.neg.set st.j ((st.neg.get ⟨st.j, hj⟩).1,
      (st.neg.get ⟨st.j, hj⟩).2 +
        min (st.pos.get ⟨st.i, hi⟩).2 (-(st.neg.get ⟨st.j, hj⟩).2)) := by
  simp [greedyStep, List.getElem?_eq_getElem hi, List.getElem?_eq_getElem hj]

theorem greedyStep_acc (st : GreedyState) (hi : st.i < st.pos.length)
    (hj : st.j < st.neg.length) :
    (greedyStep st).acc = st.acc ++ [⟨(st.neg.get ⟨st.j, hj⟩).1,
      (st.pos.get ⟨st.i, hi⟩).1,
      jsRound2 (min (st.pos.get ⟨st.i, hi⟩).2
        (-(st.neg.get ⟨st.j, hj⟩).2)), none⟩] := by
  simp [greedyStep, List.getElem?_eq_getElem hi, List.getElem?_eq_getElem hj]

theorem greedyStep_i (st : GreedyState) (hi : st.i < st.pos.length)
    (hj : st.j < st.neg.length) :
    (greedyStep st).i = if |(st.pos.get ⟨st.i, hi⟩).2 -
        min (st.pos.get ⟨st.i, hi⟩).2 (-(st.neg.get ⟨st.j, hj⟩).2)| < 1 / 100
      then st.i + 1 else st.i := by
  simp [greedyStep, List.getElem?_eq_getElem hi, List.getElem?_eq_getElem hj]

theorem greedyStep_j (st : GreedyState) (hi : st.i < st.pos.length)
    (hj : st.j < st.neg.length) :
    (greedyStep st).j = if |(st.neg.get ⟨st.j, hj⟩).2 +
        min (st.pos.get ⟨st.i, hi⟩).2 (-(st.neg.get ⟨st.j, hj⟩).2)| < 1 / 100
      then st.j + 1 else st.j := by
  simp [greedyStep, List.getElem?_eq_getElem hi, List.getElem?_eq_getElem hj]

theorem greedyStep_pos_length (st : GreedyState) :
    (greedyStep st).pos.length = st.pos.length := by
  simp [greedyStep]

theorem greedyStep_neg_length (st : GreedyState) :
    (greedyStep st).neg.length = st.neg.length := by
  simp [greedyStep]

theorem greedyStep_i_mono (st : GreedyState) : st.i ≤ (greedyStep st).i := by
  simp only [greedyStep]
  split <;> omega

theorem greedyStep_j_mono (st : GreedyState) : st.j ≤ (greedyStep st).j := by
  simp only [greedyStep]
  split <;> omega

theorem greedyStep_i_le (st : GreedyState) :
    (greedyStep st).i ≤ st.i + 1 := by
  simp only [greedyStep]
  split <;> omega

theorem greedyStep_j_le (st : GreedyState) :
    (greedyStep st).j ≤ st.j + 1 := by
  simp only [greedyStep]
  split <;> omega

theorem greedyStep_advance (st : GreedyState) (hi : st.i < st.pos.length)
    (hj : st.j < st.neg.length) :
    (greedyStep st).i = st.i + 1 ∨ (greedyStep st).j = st.j + 1 := by
  rcases min_choice (st.pos.get ⟨st.i, hi⟩).2
      (-(st.neg.get ⟨st.j, hj⟩).2) with h | h
  · left
    rw [greedyStep_i st hi hj, h]
    simp
  · right
    rw [greedyStep_j st hi hj, h]
    simp

theorem greedyStep_sum_advance (st : GreedyState) (hi : st.i < st.pos.length)
    (hj : st.j < st.neg.length) :
    st.i + st.j + 1 ≤ (greedyStep st).i + (greedyStep st).j := by
  rcases greedyStep_advance st hi hj with h | h
  · have := greedyStep_j_mono st
    omega
  · have := greedyStep_i_mono st
    omega

theorem greedyRun_not_cond (fuel : ℕ) (st : GreedyState)
    (h : ¬(st.i < st.pos.length ∧ st.j < st.neg.length)) :
    greedyRun fuel st = st := by
  cases fuel <;> simp [greedyRun, h]

theorem greedyRun_succ_cond (fuel : ℕ) (st : GreedyState)
    (h : st.i < st.pos.length ∧ st.j < st.neg.length) :
    greedyRun (fuel + 1) st = greedyRun fuel (greedyStep st) := by
  simp [greedyRun, h]

theorem greedyRun_add (f g : ℕ) (st : GreedyState) :
    greedyRun (f + g) st = greedyRun g (greedyRun f st) := by
  induction f generalizing st with
  | zero => simp [greedyRun]
  | succ f ih =>
    by_cases h : st.i < st.pos.length ∧ st.j < st.neg.length
    · rw [Nat.succ_add, greedyRun_succ_cond _ _ h, greedyRun_succ_cond _ _ h,
        ih]
    · rw [greedyRun_not_cond _ _ h, greedyRun_not_cond _ _ h,
        greedyRun_not_cond _ _ h]

theorem greedyRun_exhausts (fuel : ℕ) (st : GreedyState)
    (h : st.pos.length + st.neg.length ≤ fuel + st.i + st.j) :
    (greedyRun fuel st).pos.length ≤ (greedyRun fuel st).i ∨
      (greedyRun fuel st).neg.length ≤ (greedyRun fuel st).j := by
  induction fuel generalizing st with
  | zero =>
    simp only [greedyRun]
    omega
  | succ fuel ih =>
    by_cases hc : st.i < st.pos.length ∧ st.j < st.neg.length
    · rw [greedyRun_succ_cond _ _ hc]
      refine ih (greedyStep st) ?_
      have h1 := greedyStep_sum_advance st hc.1 hc.2
      have h2 := greedyStep_pos_length st
      have h3 := greedyStep_neg_length st
      omega
    · rw [greedyRun_not_cond _ _ hc]
      omega

theorem greedyRun_fuel_ge (st : GreedyState) (fuel fuel2 : ℕ)
    (h : st.pos.length + st.neg.length ≤ fuel + st.i + st.j)
    (h2 : fuel ≤ fuel2) : greedyRun fuel2 st = greedyRun fuel st := by
  obtain ⟨g, rfl⟩ := Nat.exists_eq_add_of_le h2
  rw [greedyRun_add]
  refine greedyRun_not_cond _ _ ?_
  rcases greedyRun_exhausts fuel st h with h3 | h3 <;> omega

end GreedyBasics

section ValOfLemmas

theorem valOf_eq_none_iff (l : List (String × ℚ)) (k : String) :
    valOf l k = none ↔ k ∉ l.map Prod.fst := by
  induction l with
  | nil => simp [valOf]
  | cons kv rest ih =>
    by_cases h : kv.1 = k
    · simp [valOf, h]
    · simp [valOf, h, ih, Ne.symm h]

theorem valOf_mem {l : List (String × ℚ)} {k : String} {v : ℚ}
    (h : valOf l k = some v) : (k, v) ∈ l := by
  induction l with
  | nil => simp [valOf] at h
  | cons kv rest ih =>
    by_cases h1 : kv.1 = k
    · simp only [valOf, if_pos h1, Option.some_inj] at h
      exact List.mem_cons.2 (Or.inl (by rw [← h1, ← h]))
    · simp only [valOf, if_neg h1] at h
      exact List.mem_cons_of_mem _ (ih h)

theorem valOf_get_nodup (l : List (String × ℚ))
    (hnodup : (l.map Prod.fst).Nodup) {n : ℕ} (h : n < l.length) :
    valOf l (l.get ⟨n, h⟩).1 = some (l.get ⟨n, h⟩).2 := by
  induction l generalizing n with
  | nil => simp at h
  | cons kv rest ih =>
    cases n with
    | zero => simp [valOf]
    | succ n =>
      have hn : n < rest.length := Nat.lt_of_succ_lt_succ h
      have hne : kv.1 ≠ (rest.get ⟨n, hn⟩).1 := by
        intro he
        have : kv.1 ∈ rest.map Prod.fst := by
          rw [he]
          exact List.mem_map_of_mem _ (List.get_mem rest n hn)
        exact (List.nodup_cons.1 hnodup).1 this
      simp only [List.get_cons_succ, valOf, if_neg hne]
      exact ih (List.nodup_cons.1 hnodup).2 hn

theorem valOf_set_key (l : List (String × ℚ))
    (hnodup : (l.map Prod.fst).Nodup) {n : ℕ} (h : n < l.length) (x : ℚ) :
    valOf (l.set n ((l.get ⟨n, h⟩).1, x)) (l.get ⟨n, h⟩).1 = some x := by
  induction l generalizing n with
  | nil => simp at h
  | cons kv rest ih =>
    cases n with
    | zero => simp [valOf]
    | succ n =>
      have hn : n < rest.length := Nat.lt_of_succ_lt_succ h
      have hne : kv.1 ≠ (rest.get ⟨n, hn⟩).1 := by
        intro he
        have : kv.1 ∈ rest.map Prod.fst := by
          rw [he]
          exact List.mem_map_of_mem _ (List.get_mem rest n hn)
        exact (List.nodup_cons.1 hnodup).1 this
      simp only [List.get_cons_succ, List.set]
      simp only [valOf, if_neg hne]
      exact ih (List.nodup_cons.1 hnodup).2 hn

theorem valOf_set_ne (l : List (String × ℚ)) {n : ℕ} (h : n < l.length)
    (x : ℚ) {k : String} (hk : k ≠ (l.get ⟨n, h⟩).1) :
    valOf (l.set n ((l.get ⟨n, h⟩).1, x)) k = valOf l k := by
  induction l generalizing n with
  | nil => simp at h
  | cons kv rest ih =>
    cases n with
    | zero =>
      simp only [List.get] at hk
      simp [List.set, valOf, Ne.symm hk]
    | succ n =>
      have hn : n < rest.length := Nat.lt_of_succ_lt_succ h
      simp only [List.get_cons_succ] at hk
      simp only [List.set, valOf]
      by_cases h1 : kv.1 = k
      · simp [h1]
      · simp only [if_neg h1]
        exact ih hn hk

theorem snd_zero_of_get_zero {l : List (String × ℚ)}
    (h : ∀ k (hk : k < l.length), (l.get ⟨k, hk⟩).2 = 0) :
    ∀ kv ∈ l, kv.2 = 0 := by
  intro kv hkv
  obtain ⟨⟨k, hk⟩, rfl⟩ := List.mem_iff_get.1 hkv
  exact h k hk

theorem sum_map_snd_zero {l : List (String × ℚ)}
    (h : ∀ kv ∈ l, kv.2 = 0) : (l.map Prod.snd).sum = 0 := by
  refine List.sum_eq_zero ?_
  intro x hx
  obtain ⟨kv, hkv, rfl⟩ := List.mem_map.1 hx
  exact h kv hkv

theorem all_zero_of_nonpos_sum {l : List ℚ} (h : ∀ x ∈ l, x ≤ 0)
    (h2 : l.sum = 0) : ∀ x ∈ l, x = 0 := by
  induction l with
  | nil => simp
  | cons a l ih =>
    have hsl : l.sum ≤ 0 := by
      clear h2 ih
      induction l with
      | nil => simp
      | cons b l ih2 =>
        have hb := h b (by simp)
        have := ih2 (fun x hx => h x (by
          rcases List.mem_cons.1 hx with h3 | h3
          · exact h3 ▸ List.mem_cons_self _ _
          · exact List.mem_cons_of_mem _ (List.mem_cons_of_mem _ h3)))
        simp only [List.sum_cons]
        linarith
    have ha := h a (List.mem_cons_self _ _)
    simp only [List.sum_cons] at h2
    have ha0 : a = 0 := by linarith
    intro x hx
    rcases List.mem_cons.1 hx with h3 | h3
    · rw [h3]
      exact ha0
    · exact ih (fun y hy => h y (List.mem_cons_of_mem _ hy))
        (by linarith) x h3

end ValOfLemmas

section ZInvariant

/-- Loop invariant of the two-pointer greedy pass on a cent-integral,
zero-sum entry set. `f0` is the ambient balance assignment the recorded
settlements are applied against. -/
structure ZInv (f0 : String → ℚ) (st : GreedyState) : Prop where
  nodupKeys : (st.pos.map Prod.fst ++ st.neg.map Prod.fst).Nodup
  hi : st.i ≤ st.pos.length
  hj : st.j ≤ st.neg.length
  centP : ∀ k (h : k < st.pos.length), IsCent (st.pos.get ⟨k, h⟩).2
  centN : ∀ k (h : k < st.neg.length), IsCent (st.neg.get ⟨k, h⟩).2
  zeroP : ∀ k (h : k < st.pos.length), k < st.i → (st.pos.get ⟨k, h⟩).2 = 0
  posP : ∀ k (h : k < st.pos.length), st.i ≤ k → 0 < (st.pos.get ⟨k, h⟩).2
  zeroN : ∀ k (h : k < st.neg.length), k < st.j → (st.neg.get ⟨k, h⟩).2 = 0
  negN : ∀ k (h : k < st.neg.length), st.j ≤ k → (st.neg.get ⟨k, h⟩).2 < 0
  sum0 : (st.pos.map Prod.snd).sum + (st.neg.map Prod.snd).sum = 0
  track : ∀ pid, applyAll f0 st.acc pid = stVal f0 st pid
  accGood : ∀ s ∈ st.acc, 0 < s.amount ∧ IsCent s.amount

theorem applyAll_append (bal : String → ℚ) (ss1 ss2 : List Settlement) :
    applyAll bal (ss1 ++ ss2) = applyAll (applyAll bal ss1) ss2 :=
  List.foldl_append _ _ _ _

theorem greedyStep_pos_get (st : GreedyState) (hi : st.i < st.pos.length)
    (hj : st.j < st.neg.length) (k : ℕ) (hk : k < st.pos.length)
    (hk2 : k < (greedyStep st).pos.length) :
    (greedyStep st).pos.get ⟨k, hk2⟩ =
      if k = st.i then
        ((st.pos.get ⟨st.i, hi⟩).1, (st.pos.get ⟨st.i, hi⟩).2 -
          min (st.pos.get ⟨st.i, hi⟩).2 (-(st.neg.get ⟨st.j, hj⟩).2))
      else st.pos.get ⟨k, hk⟩ := by
  by_cases hki : k = st.i
  · subst hki
    simp [greedyStep_pos st hi hj]
  · simp [greedyStep_pos st hi hj, List.getElem_set_ne (Ne.symm hki), hki]

theorem greedyStep_neg_get (st : GreedyState) (hi : st.i < st.pos.length)
    (hj : st.j < st.neg.length) (k : ℕ) (hk : k < st.neg.length)
    (hk2 : k < (greedyStep st).neg.length) :
    (greedyStep st).neg.get ⟨k, hk2⟩ =
      if k = st.j then
        ((st.neg.get ⟨st.j, hj⟩).1, (st.neg.get ⟨st.j, hj⟩).2 +
          min (st.pos.get ⟨st.i, hi⟩).2 (-(st.neg.get ⟨st.j, hj⟩).2))
      else st.neg.get ⟨k, hk⟩ := by
  by_cases hkj : k = st.j
  · subst hkj
    simp [greedyStep_neg st hi hj]
  · simp [greedyStep_neg st hi hj, List.getElem_set_ne (Ne.symm hkj), hkj]

theorem zinv_step (f0 : String → ℚ) (st : GreedyState) (inv : ZInv f0 st)
    (hi : st.i < st.pos.length) (hj : st.j < st.neg.length) :
    ZInv f0 (greedyStep st) := by
  have hplen := greedyStep_pos_length st
  have hnlen := greedyStep_neg_length st
  have hpos := greedyStep_pos st hi hj
  have hneg := greedyStep_neg st hi hj
  have hacc := greedyStep_acc st hi hj
  have hieq := greedyStep_i st hi hj
  have hjeq := greedyStep_j st hi hj
  have ha : 0 < (st.pos.get ⟨st.i, hi⟩).2 := inv.posP st.i hi le_rfl
  have hb : (st.neg.get ⟨st.j, hj⟩).2 < 0 := inv.negN st.j hj le_rfl
  have hca : IsCent (st.pos.get ⟨st.i, hi⟩).2 := inv.centP st.i hi
  have hcb : IsCent (st.neg.get ⟨st.j, hj⟩).2 := inv.centN st.j hj
  have hamt_pos : 0 < min (st.pos.get ⟨st.i, hi⟩).2
      (-(st.neg.get ⟨st.j, hj⟩).2) := lt_min ha (by linarith)
  have hcamt : IsCent (min (st.pos.get ⟨st.i, hi⟩).2
      (-(st.neg.get ⟨st.j, hj⟩).2)) := hca.min hcb.neg
  have hle_a : min (st.pos.get ⟨st.i, hi⟩).2 (-(st.neg.get ⟨st.j, hj⟩).2) ≤
      (st.pos.get ⟨st.i, hi⟩).2 := min_le_left _ _
  have hle_b : min (st.pos.get ⟨st.i, hi⟩).2 (-(st.neg.get ⟨st.j, hj⟩).2) ≤
      -(st.neg.get ⟨st.j, hj⟩).2 := min_le_right _ _
  have hcentNewP : IsCent ((st.pos.get ⟨st.i, hi⟩).2 -
      min (st.pos.get ⟨st.i, hi⟩).2 (-(st.neg.get ⟨st.j, hj⟩).2)) :=
    hca.sub hcamt
  have hcentNewN : IsCent ((st.neg.get ⟨st.j, hj⟩).2 +
      min (st.pos.get ⟨st.i, hi⟩).2 (-(st.neg.get ⟨st.j, hj⟩).2)) :=
    hcb.add hcamt
  have hNewP_nonneg : 0 ≤ (st.pos.get ⟨st.i, hi⟩).2 -
      min (st.pos.get ⟨st.i, hi⟩).2 (-(st.neg.get ⟨st.j, hj⟩).2) := by
    linarith
  have hNewN_nonpos : (st.neg.get ⟨st.j, hj⟩).2 +
      min (st.pos.get ⟨st.i, hi⟩).2 (-(st.neg.get ⟨st.j, hj⟩).2) ≤ 0 := by
    linarith
  have hdisj : List.Disjoint (st.pos.map Prod.fst) (st.neg.map Prod.fst) :=
    (List.nodup_append.1 inv.nodupKeys).2.2
  have hnodupP : (st.pos.map Prod.fst).Nodup :=
    (List.nodup_append.1 inv.nodupKeys).1
  have hnodupN : (st.neg.map Prod.fst).Nodup :=
    (List.nodup_append.1 inv.nodupKeys).2.1
  have hkeysP : (greedyStep st).pos.map Prod.fst = st.pos.map Prod.fst := by
    rw [hpos]
    exact map_fst_set _ hi _
  have hkeysN : (greedyStep st).neg.map Prod.fst = st.neg.map Prod.fst := by
    rw [hneg]
    exact map_fst_set _ hj _
  refine ⟨?_, ?_, ?_, ?_, ?_, ?_, ?_, ?_, ?_, ?_, ?_, ?_⟩
  · rw [hkeysP, hkeysN]
    exact inv.nodupKeys
  · rw [hplen, hieq]
    split <;> omega
  · rw [hnlen, hjeq]
    split <;> omega
  · intro k hk0
    have hk : k < st.pos.length := by rw [← hplen]; exact hk0
    rw [greedyStep_pos_get st hi hj k hk hk0]
    by_cases hki : k = st.i
    · rw [if_pos hki]
      exact hcentNewP
    · rw [if_neg hki]
      exact inv.centP k hk
  · intro k hk0
    have hk : k < st.neg.length := by rw [← hnlen]; exact hk0
    rw [greedyStep_neg_get st hi hj k hk hk0]
    by_cases hkj : k = st.j
    · rw [if_pos hkj]
      exact hcentNewN
    · rw [if_neg hkj]
      exact inv.centN k hk
  · intro k hk0 hki0
    have hk : k < st.pos.length := by rw [← hplen]; exact hk0
    rw [greedyStep_pos_get st hi hj k hk hk0]
    by_cases hki : k = st.i
    · rw [if_pos hki]
      rw [hieq] at hki0
      have hadv : |(st.pos.get ⟨st.i, hi⟩).2 - min (st.pos.get ⟨st.i, hi⟩).2
          (-(st.neg.get ⟨st.j, hj⟩).2)| < 1 / 100 := by
        by_contra hc
        rw [if_neg hc] at hki0
        omega
      exact hcentNewP.abs_lt_hundredth_iff.1 hadv
    · rw [if_neg hki]
      refine inv.zeroP k hk ?_
      rw [hieq] at hki0
      revert hki0
      split <;> omega
  · intro k hk0 hki0
    have hk : k < st.pos.length := by rw [← hplen]; exact hk0
    rw [greedyStep_pos_get st hi hj k hk hk0]
    by_cases hki : k = st.i
    · rw [if_pos hki]
      rw [hieq] at hki0
      have hnadv : ¬ |(st.pos.get ⟨st.i, hi⟩).2 - min (st.pos.get ⟨st.i, hi⟩).2
          (-(st.neg.get ⟨st.j, hj⟩).2)| < 1 / 100 := by
        by_contra hc
        rw [if_pos hc] at hki0
        omega
      rw [abs_of_nonneg hNewP_nonneg] at hnadv
      have := le_of_not_lt hnadv
      show (0 : ℚ) < (st.pos.get ⟨st.i, hi⟩).2 - min (st.pos.get ⟨st.i, hi⟩).2
        (-(st.neg.get ⟨st.j, hj⟩).2)
      linarith
    · rw [if_neg hki]
      refine inv.posP k hk ?_
      rw [hieq] at hki0
      revert hki0
      split <;> omega
  · intro k hk0 hkj0
    have hk : k < st.neg.length := by rw [← hnlen]; exact hk0
    rw [greedyStep_neg_get st hi hj k hk hk0]
    by_cases hkj : k = st.j
    · rw [if_pos hkj]
      rw [hjeq] at hkj0
      have hadv : |(st.neg.get ⟨st.j, hj⟩).2 + min (st.pos.get ⟨st.i, hi⟩).2
          (-(st.neg.get ⟨st.j, hj⟩).2)| < 1 / 100 := by
        by_contra hc
        rw [if_neg hc] at hkj0
        omega
      exact hcentNewN.abs_lt_hundredth_iff.1 hadv
    · rw [if_neg hkj]
      refine inv.zeroN k hk ?_
      rw [hjeq] at hkj0
      revert hkj0
      split <;> omega
  · intro k hk0 hkj0
    have hk : k < st.neg.length := by rw [← hnlen]; exact hk0
    rw [greedyStep_neg_get st hi hj k hk hk0]
    by_cases hkj : k = st.j
    · rw [if_pos hkj]
      rw [hjeq] at hkj0
      have hnadv : ¬ |(st.neg.get ⟨st.j, hj⟩).2 + min (st.pos.get ⟨st.i, hi⟩).2
          (-(st.neg.get ⟨st.j, hj⟩).2)| < 1 / 100 := by
        by_contra hc
        rw [if_pos hc] at hkj0
        omega
      rw [abs_of_nonpos hNewN_nonpos] at hnadv
      have := le_of_not_lt hnadv
      show (st.neg.get ⟨st.j, hj⟩).2 + min (st.pos.get ⟨st.i, hi⟩).2
        (-(st.neg.get ⟨st.j, hj⟩).2) < 0
      linarith
    · rw [if_neg hkj]
      refine inv.negN k hk ?_
      rw [hjeq] at hkj0
      revert hkj0
      split <;> omega
  · rw [hpos, hneg, sum_map_snd_set _ hi, sum_map_snd_set _ hj]
    have hs := inv.sum0
    show (st.pos.map Prod.snd).sum - (st.pos.get ⟨st.i, hi⟩).2 +
        ((st.pos.get ⟨st.i, hi⟩).2 - min (st.pos.get ⟨st.i, hi⟩).2
          (-(st.neg.get ⟨st.j, hj⟩).2)) +
      ((st.neg.map Prod.snd).sum - (st.neg.get ⟨st.j, hj⟩).2 +
        ((st.neg.get ⟨st.j, hj⟩).2 + min (st.pos.get ⟨st.i, hi⟩).2
          (-(st.neg.get ⟨st.j, hj⟩).2))) = 0
    linarith
  · intro pid
    rw [hacc, applyAll_append]
    have hfun : applyAll f0 st.acc = stVal f0 st := funext inv.track
    rw [hfun]
    show applySettlement (stVal f0 st) _ pid = _
    simp only [applySettlement]
    have hroundamt : jsRound2 (min (st.pos.get ⟨st.i, hi⟩).2
        (-(st.neg.get ⟨st.j, hj⟩).2)) = min (st.pos.get ⟨st.i, hi⟩).2
        (-(st.neg.get ⟨st.j, hj⟩).2) := hcamt
    by_cases hq : pid = (st.neg.get ⟨st.j, hj⟩).1
    · rw [if_pos hq]
      have h1 : stVal f0 st pid = (st.neg.get ⟨st.j, hj⟩).2 := by
        have hvp : valOf st.pos pid = none := by
          rw [valOf_eq_none_iff, hq]
          exact fun hmem => hdisj hmem
            (List.mem_map_of_mem _ (List.get_mem _ _ hj))
        have hvn : valOf st.neg pid = some (st.neg.get ⟨st.j, hj⟩).2 := by
          rw [hq]
          exact valOf_get_nodup _ hnodupN hj
        simp only [stVal, hvp, hvn]
      have h2 : stVal f0 (greedyStep st) pid =
          (st.neg.get ⟨st.j, hj⟩).2 + min (st.pos.get ⟨st.i, hi⟩).2
            (-(st.neg.get ⟨st.j, hj⟩).2) := by
        have hvp : valOf (greedyStep st).pos pid = none := by
          rw [valOf_eq_none_iff, hkeysP, hq]
          exact fun hmem => hdisj hmem
            (List.mem_map_of_mem _ (List.get_mem _ _ hj))
        have hvn : valOf (greedyStep st).neg pid =
            some ((st.neg.get ⟨st.j, hj⟩).2 + min (st.pos.get ⟨st.i, hi⟩).2
              (-(st.neg.get ⟨st.j, hj⟩).2)) := by
          rw [hneg, hq]
          exact valOf_set_key _ hnodupN hj _
        simp only [stVal, hvp, hvn]
      rw [h1, h2, hroundamt]
    · by_cases hp : pid = (st.pos.get ⟨st.i, hi⟩).1
      · rw [if_neg hq, if_pos hp]
        have h1 : stVal f0 st pid = (st.pos.get ⟨st.i, hi⟩).2 := by
          have hvp : valOf st.pos pid = some (st.pos.get ⟨st.i, hi⟩).2 := by
            rw [hp]
            exact valOf_get_nodup _ hnodupP hi
          simp only [stVal, hvp]
        have h2 : stVal f0 (greedyStep st) pid =
            (st.pos.get ⟨st.i, hi⟩).2 - min (st.pos.get ⟨st.i, hi⟩).2
              (-(st.neg.get ⟨st.j, hj⟩).2) := by
          have hvp : valOf (greedyStep st).pos pid =
              some ((st.pos.get ⟨st.i, hi⟩).2 - min (st.pos.get ⟨st.i, hi⟩).2
                (-(st.neg.get ⟨st.j, hj⟩).2)) := by
            rw [hpos, hp]
            exact valOf_set_key _ hnodupP hi _
          simp only [stVal, hvp]
        rw [h1, h2, hroundamt]
      · rw [if_neg hq, if_neg hp]
        have h1 : stVal f0 (greedyStep st) pid = stVal f0 st pid := by
          have hvp : valOf (greedyStep st).pos pid = valOf st.pos pid := by
            rw [hpos]
            exact valOf_set_ne _ hi _ hp
          have hvn : valOf (greedyStep st).neg pid = valOf st.neg pid := by
            rw [hneg]
            exact valOf_set_ne _ hj _ hq
          simp only [stVal, hvp, hvn]
        rw [h1]
  · intro s hs
    rw [hacc] at hs
    rcases List.mem_append.1 hs with h1 | h1
    · exact inv.accGood s h1
    · simp only [List.mem_singleton] at h1
      subst h1
      refine ⟨?_, isCent_jsRound2 _⟩
      show 0 < jsRound2 (min (st.pos.get ⟨st.i, hi⟩).2
        (-(st.neg.get ⟨st.j, hj⟩).2))
      rw [show jsRound2 (min (st.pos.get ⟨st.i, hi⟩).2
        (-(st.neg.get ⟨st.j, hj⟩).2)) = min (st.pos.get ⟨st.i, hi⟩).2
        (-(st.neg.get ⟨st.j, hj⟩).2) from hcamt]
      exact hamt_pos

theorem zinv_run (f0 : String → ℚ) (fuel : ℕ) (st : GreedyState)
    (inv : ZInv f0 st) : ZInv f0 (greedyRun fuel st) := by
  induction fuel generalizing st with
  | zero => exact inv
  | succ fuel ih =>
    by_cases hc : st.i < st.pos.length ∧ st.j < st.neg.length
    · rw [greedyRun_succ_cond _ _ hc]
      exact ih _ (zinv_step f0 st inv hc.1 hc.2)
    · rw [greedyRun_not_cond _ _ hc]
      exact inv

theorem greedyRun_pos_keys (fuel : ℕ) (st : GreedyState) :
    (greedyRun fuel st).pos.map Prod.fst = st.pos.map Prod.fst := by
  induction fuel generalizing st with
  | zero => rfl
  | succ fuel ih =>
    by_cases hc : st.i < st.pos.length ∧ st.j < st.neg.length
    · rw [greedyRun_succ_cond _ _ hc, ih, greedyStep_pos st hc.1 hc.2]
      exact map_fst_set _ hc.1 _
    · rw [greedyRun_not_cond _ _ hc]

theorem greedyRun_neg_keys (fuel : ℕ) (st : GreedyState) :
    (greedyRun fuel st).neg.map Prod.fst = st.neg.map Prod.fst := by
  induction fuel generalizing st with
  | zero => rfl
  | succ fuel ih =>
    by_cases hc : st.i < st.pos.length ∧ st.j < st.neg.length
    · rw [greedyRun_succ_cond _ _ hc, ih, greedyStep_neg st hc.1 hc.2]
      exact map_fst_set _ hc.2 _
    · rw [greedyRun_not_cond _ _ hc]

theorem sum_map_neg (l : List ℚ) : (l.map (fun y => -y)).sum = -l.sum := by
  induction l with
  | nil => simp
  | cons a l ih =>
    simp only [List.map_cons, List.sum_cons, ih]
    ring

theorem all_zero_of_nonneg_sum {l : List ℚ} (h : ∀ x ∈ l, 0 ≤ x)
    (h2 : l.sum = 0) : ∀ x ∈ l, x = 0 := by
  intro x hx
  have h3 := all_zero_of_nonpos_sum (l := l.map fun y => -y)
    (by
      intro y hy
      obtain ⟨z, hz, rfl⟩ := List.mem_map.1 hy
      simpa using h z hz)
    (by rw [sum_map_neg, h2, neg_zero]) (-x) (List.mem_map_of_mem _ hx)
  linarith

theorem zinv_all_zero (f0 : String → ℚ) (st : GreedyState) (inv : ZInv f0 st)
    (hterm : st.pos.length ≤ st.i ∨ st.neg.length ≤ st.j) :
    (∀ kv ∈ st.pos, kv.2 = 0) ∧ ∀ kv ∈ st.neg, kv.2 = 0 := by
  rcases hterm with ht | ht
  · have hP : ∀ kv ∈ st.pos, kv.2 = 0 :=
      snd_zero_of_get_zero (fun k hk => inv.zeroP k hk (lt_of_lt_of_le hk ht))
    have hsum : (st.pos.map Prod.snd).sum = 0 := sum_map_snd_zero hP
    have hsumN : (st.neg.map Prod.snd).sum = 0 := by
      have := inv.sum0
      linarith
    have hN : ∀ x ∈ st.neg.map Prod.snd, x = 0 := by
      refine all_zero_of_nonpos_sum ?_ hsumN
      intro x hx
      obtain ⟨kv, hkv, rfl⟩ := List.mem_map.1 hx
      obtain ⟨⟨k, hk⟩, rfl⟩ := List.mem_iff_get.1 hkv
      rcases Nat.lt_or_ge k st.j with h | h
      · exact le_of_eq (inv.zeroN k hk h)
      · exact le_of_lt (inv.negN k hk h)
    exact ⟨hP, fun kv hkv => hN _ (List.mem_map_of_mem _ hkv)⟩
  · have hN : ∀ kv ∈ st.neg, kv.2 = 0 :=
      snd_zero_of_get_zero (fun k hk => inv.zeroN k hk (lt_of_lt_of_le hk ht))
    have hsum : (st.neg.map Prod.snd).sum = 0 := sum_map_snd_zero hN
    have hsumP : (st.pos.map Prod.snd).sum = 0 := by
      have := inv.sum0
      linarith
    have hP : ∀ x ∈ st.pos.map Prod.snd, x = 0 := by
      refine all_zero_of_nonneg_sum ?_ hsumP
      intro x hx
      obtain ⟨kv, hkv, rfl⟩ := List.mem_map.1 hx
      obtain ⟨⟨k, hk⟩, rfl⟩ := List.mem_iff_get.1 hkv
      rcases Nat.lt_or_ge k st.i with h | h
      · exact (inv.zeroP k hk h).ge
      · exact le_of_lt (inv.posP k hk h)
    exact ⟨fun kv hkv => hP _ (List.mem_map_of_mem _ hkv), hN⟩

theorem zinv_final (f0 : String → ℚ) (st : GreedyState) (inv : ZInv f0 st)
    (hterm : st.pos.length ≤ st.i ∨ st.neg.length ≤ st.j) :
    ∀ pid, applyAll f0 st.acc pid =
      if pid ∈ st.pos.map Prod.fst ∨ pid ∈ st.neg.map Prod.fst then 0
      else f0 pid := by
  obtain ⟨hPz, hNz⟩ := zinv_all_zero f0 st inv hterm
  intro pid
  rw [inv.track pid]
  by_cases hmem : pid ∈ st.pos.map Prod.fst ∨ pid ∈ st.neg.map Prod.fst
  · rw [if_pos hmem]
    cases hvp : valOf st.pos pid with
    | some v =>
      have hv0 : v = 0 := hPz _ (valOf_mem hvp)
      simp only [stVal, hvp, hv0]
    | none =>
      rcases hmem with hm | hm
      · exact absurd ((valOf_eq_none_iff _ _).1 hvp hm) (by simp)
      · have hne : valOf st.neg pid ≠ none := by
          rw [Ne, valOf_eq_none_iff]
          simpa using hm
        obtain ⟨v, hv⟩ := Option.ne_none_iff_exists'.1 hne
        have hv0 : v = 0 := hNz _ (valOf_mem hv)
        simp only [stVal, hvp, hv, hv0]
  · rw [if_neg hmem]
    push_neg at hmem
    have hvp : valOf st.pos pid = none := (valOf_eq_none_iff _ _).2 hmem.1
    have hvn : valOf st.neg pid = none := (valOf_eq_none_iff _ _).2 hmem.2
    simp only [stVal, hvp, hvn]

theorem keysOf_filterEntries (p : Option ℚ → Bool) (m : BalanceRec) :
    ((m.filter (fun kv => p kv.2)).map
        (fun kv => (kv.1, kv.2.getD 0))).map Prod.fst =
      (m.filter (fun kv => p kv.2)).map Prod.fst := by
  rw [List.map_map]
  rfl

theorem nodup_keys_filterEntries (p : Option ℚ → Bool) (m : BalanceRec)
    (h : (keysOf m).Nodup) :
    (((m.filter (fun kv => p kv.2)).map
      (fun kv => (kv.1, kv.2.getD 0))).map Prod.fst).Nodup := by
  rw [keysOf_filterEntries]
  exact h.sublist ((List.filter_sublist m).map Prod.fst)

theorem mem_keys_filterEntries {p : Option ℚ → Bool} {m : BalanceRec}
    {pid : String}
    (h : pid ∈ ((m.filter (fun kv => p kv.2)).map
      (fun kv => (kv.1, kv.2.getD 0))).map Prod.fst) : pid ∈ keysOf m := by
  rw [keysOf_filterEntries] at h
  obtain ⟨kv, hkv, rfl⟩ := List.mem_map.1 h
  exact List.mem_map_of_mem _ (List.mem_of_mem_filter hkv)

theorem valOf_filterEntries (p : Option ℚ → Bool) (hp : p none = false)
    (m : BalanceRec) (hnodup : (keysOf m).Nodup) (pid : String) :
    valOf ((m.filter (fun kv => p kv.2)).map
        (fun kv => (kv.1, kv.2.getD 0))) pid =
      if p (getVal m pid) then some ((getVal m pid).getD 0) else none := by
  induction m with
  | nil => simp [valOf, getVal, hp]
  | cons kv rest ih =>
    have hnodup2 : (keysOf rest).Nodup := (List.nodup_cons.1 hnodup).2
    have hfc : (kv :: rest).filter (fun kv => p kv.2) =
        if p kv.2 then kv :: rest.filter (fun kv => p kv.2)
        else rest.filter (fun kv => p kv.2) := List.filter_cons
    by_cases hkey : kv.1 = pid
    · have hget : getVal (kv :: rest) pid = kv.2 := by
        simp [getVal, hkey]
      rw [hget, hfc]
      by_cases hpred : p kv.2
      · rw [if_pos hpred, if_pos hpred]
        simp [valOf, hkey]
      · rw [if_neg hpred, if_neg hpred]
        rw [valOf_eq_none_iff]
        intro hmem
        exact (List.nodup_cons.1 hnodup).1
          (by rw [hkey]; exact mem_keys_filterEntries hmem)
    · have hget : getVal (kv :: rest) pid = getVal rest pid := by
        simp [getVal, hkey]
      rw [hget, hfc]
      by_cases hpred : p kv.2
      · rw [if_pos hpred]
        simp only [List.map_cons]
        have hskip : valOf ((kv.1, kv.2.getD 0) ::
            (rest.filter (fun kv => p kv.2)).map
              (fun kv => (kv.1, kv.2.getD 0))) pid =
            valOf ((rest.filter (fun kv => p kv.2)).map
              (fun kv => (kv.1, kv.2.getD 0))) pid := by
          simp [valOf, hkey]
        rw [hskip]
        exact ih hnodup2
      · rw [if_neg hpred]
        exact ih hnodup2

theorem valOf_positiveEntries (m : BalanceRec)
    (hnodup : (keysOf m).Nodup) (pid : String) :
    valOf (positiveEntries m) pid =
      if jsGtZero (getVal m pid) then some ((getVal m pid).getD 0)
      else none :=
  valOf_filterEntries jsGtZero rfl m hnodup pid

theorem valOf_negativeEntries (m : BalanceRec)
    (hnodup : (keysOf m).Nodup) (pid : String) :
    valOf (negativeEntries m) pid =
      if jsLtZero (getVal m pid) then some ((getVal m pid).getD 0)
      else none :=
  valOf_filterEntries jsLtZero rfl m hnodup pid

theorem totalBal_eq_pos_add_neg (m : BalanceRec) :
    totalBal m = ((positiveEntries m).map Prod.snd).sum +
      ((negativeEntries m).map Prod.snd).sum := by
  induction m with
  | nil => simp [totalBal, positiveEntries, negativeEntries]
  | cons kv rest ih =>
    rw [totalBal_cons, ih]
    by_cases hg : jsGtZero kv.2
    · have hl : jsLtZero kv.2 = false := by
        cases hv : kv.2 with
        | none => rfl
        | some q =>
          rw [hv] at hg
          simp only [jsGtZero, decide_eq_true_eq] at hg
          simp only [jsLtZero, decide_eq_false_iff_not]
          linarith
      simp only [positiveEntries, negativeEntries, List.filter_cons, hg, hl,
        Bool.false_eq_true, if_true, if_false, List.map_cons, List.sum_cons]
      ring
    · have hg2 : jsGtZero kv.2 = false := by simpa using hg
      by_cases hl : jsLtZero kv.2
      · simp only [positiveEntries, negativeEntries, List.filter_cons, hg2,
          hl, Bool.false_eq_true, if_true, if_false, List.map_cons,
          List.sum_cons]
        ring
      · have hl2 : jsLtZero kv.2 = false := by simpa using hl
        have hz : kv.2.getD 0 = 0 := by
          cases hv : kv.2 with
          | none => rfl
          | some q =>
            rw [hv] at hg hl
            simp only [jsGtZero, decide_eq_true_eq] at hg
            simp only [jsLtZero, decide_eq_true_eq] at hl
            simp only [Option.getD_some]
            linarith
        simp only [positiveEntries, negativeEntries, List.filter_cons, hg2,
          hl2, Bool.false_eq_true, if_false, hz]
        ring

theorem pos_neg_keys_disjoint (m : BalanceRec)
    (hnodup : (keysOf m).Nodup) :
    List.Disjoint ((positiveEntries m).map Prod.fst)
      ((negativeEntries m).map Prod.fst) := by
  intro pid hp hn
  have h1 : valOf (positiveEntries m) pid ≠ none := by
    rw [Ne, valOf_eq_none_iff]
    simpa using hp
  have h2 : valOf (negativeEntries m) pid ≠ none := by
    rw [Ne, valOf_eq_none_iff]
    simpa using hn
  rw [valOf_positiveEntries m hnodup pid] at h1
  rw [valOf_negativeEntries m hnodup pid] at h2
  by_cases hg : jsGtZero (getVal m pid)
  · by_cases hl : jsLtZero (getVal m pid)
    · cases hv : getVal m pid with
      | none =>
        rw [hv] at hg
        simp [jsGtZero] at hg
      | some q =>
        rw [hv] at hg hl
        simp only [jsGtZero, decide_eq_true_eq] at hg
        simp only [jsLtZero, decide_eq_true_eq] at hl
        linarith
    · rw [if_neg hl] at h2
      exact h2 rfl
  · rw [if_neg hg] at h1
    exact h1 rfl

theorem balFun_zero_of_not_posneg (m : BalanceRec)
    (hnodup : (keysOf m).Nodup) (pid : String)
    (h1 : pid ∉ (positiveEntries m).map Prod.fst)
    (h2 : pid ∉ (negativeEntries m).map Prod.fst) : balFun m pid = 0 := by
  have hv1 : valOf (positiveEntries m) pid = none :=
    (valOf_eq_none_iff _ _).2 h1
  have hv2 : valOf (negativeEntries m) pid = none :=
    (valOf_eq_none_iff _ _).2 h2
  rw [valOf_positiveEntries m hnodup pid] at hv1
  rw [valOf_negativeEntries m hnodup pid] at hv2
  have hg : ¬ jsGtZero (getVal m pid) = true := by
    intro h
    rw [if_pos h] at hv1
    exact Option.some_ne_none _ hv1
  have hl : ¬ jsLtZero (getVal m pid) = true := by
    intro h
    rw [if_pos h] at hv2
    exact Option.some_ne_none _ hv2
  rw [balFun]
  cases hv : getVal m pid with
  | none => rfl
  | some q =>
    rw [hv] at hg hl
    simp only [jsGtZero, decide_eq_true_eq] at hg
    simp only [jsLtZero, decide_eq_true_eq] at hl
    simp only [Option.getD_some]
    linarith

theorem zinv_init (m : BalanceRec) (hnodup : (keysOf m).Nodup)
    (hcent : ∀ kv ∈ m, CentVal kv.2) (hsum : totalBal m = 0) :
    ZInv (balFun m)
      { pos := positiveEntries m, neg := negativeEntries m,
        i := 0, j := 0, acc := [] } := by
  have hcentEntry : ∀ kv2 ∈ positiveEntries m, IsCent kv2.2 := by
    intro kv2 hkv2
    obtain ⟨kv, hkv, rfl⟩ := List.mem_map.1 hkv2
    exact (hcent kv (List.mem_of_mem_filter hkv)).2
  have hcentEntryN : ∀ kv2 ∈ negativeEntries m, IsCent kv2.2 := by
    intro kv2 hkv2
    obtain ⟨kv, hkv, rfl⟩ := List.mem_map.1 hkv2
    exact (hcent kv (List.mem_of_mem_filter hkv)).2
  have hposval : ∀ kv2 ∈ positiveEntries m, 0 < kv2.2 := by
    intro kv2 hkv2
    obtain ⟨kv, hkv, rfl⟩ := List.mem_map.1 hkv2
    have := List.of_mem_filter hkv
    cases hv : kv.2 with
    | none =>
      rw [hv] at this
      simp [jsGtZero] at this
    | some q =>
      rw [hv] at this
      simp only [jsGtZero, decide_eq_true_eq] at this
      simpa [hv] using this
  have hnegval : ∀ kv2 ∈ negativeEntries m, kv2.2 < 0 := by
    intro kv2 hkv2
    obtain ⟨kv, hkv, rfl⟩ := List.mem_map.1 hkv2
    have := List.of_mem_filter hkv
    cases hv : kv.2 with
    | none =>
      rw [hv] at this
      simp [jsLtZero] at this
    | some q =>
      rw [hv] at this
      simp only [jsLtZero, decide_eq_true_eq] at this
      simpa [hv] using this
  refine ⟨?_, ?_, ?_, ?_, ?_, ?_, ?_, ?_, ?_, ?_, ?_, ?_⟩
  · exact List.Nodup.append (nodup_keys_filterEntries jsGtZero m hnodup)
      (nodup_keys_filterEntries jsLtZero m hnodup)
      (pos_neg_keys_disjoint m hnodup)
  · exact Nat.zero_le _
  · exact Nat.zero_le _
  · intro k hk
    exact hcentEntry _ (List.get_mem _ _ hk)
  · intro k hk
    exact hcentEntryN _ (List.get_mem _ _ hk)
  · intro k hk hlt
    exact absurd hlt (Nat.not_lt_zero k)
  · intro k hk _
    exact hposval _ (List.get_mem _ _ hk)
  · intro k hk hlt
    exact absurd hlt (Nat.not_lt_zero k)
  · intro k hk _
    exact hnegval _ (List.get_mem _ _ hk)
  · rw [← totalBal_eq_pos_add_neg]
    exact hsum
  · intro pid
    show balFun m pid = stVal (balFun m) _ pid
    have hv1 := valOf_positiveEntries m hnodup pid
    have hv2 := valOf_negativeEntries m hnodup pid
    by_cases hg : jsGtZero (getVal m pid)
    · rw [if_pos hg] at hv1
      simp only [stVal, hv1]
      rfl
    · rw [if_neg hg] at hv1
      by_cases hl : jsLtZero (getVal m pid)
      · rw [if_pos hl] at hv2
        simp only [stVal, hv1, hv2]
        rfl
      · rw [if_neg hl] at hv2
        simp only [stVal, hv1, hv2]
  · intro s hs
    simp at hs

theorem originalSettlements_zeroing (m : BalanceRec)
    (hnodup : (keysOf m).Nodup) (hcent : ∀ kv ∈ m, CentVal kv.2)
    (hsum : totalBal m = 0) :
    (∀ s ∈ originalSettlements m, 0 < s.amount ∧ IsCent s.amount) ∧
      ∀ pid, applyAll (balFun m) (originalSettlements m) pid = 0 := by
  have hinv0 := zinv_init m hnodup hcent hsum
  have hinv := zinv_run (balFun m)
    ((positiveEntries m).length + (negativeEntries m).length)
    { pos := positiveEntries m, neg := negativeEntries m,
      i := 0, j := 0, acc := [] } hinv0
  have hterm := greedyRun_exhausts
    ((positiveEntries m).length + (negativeEntries m).length)
    { pos := positiveEntries m, neg := negativeEntries m,
      i := 0, j := 0, acc := [] } (by simp)
  have hfinal := zinv_final _ _ hinv hterm
  constructor
  · intro s hs
    exact hinv.accGood s hs
  · intro pid
    have heq := hfinal pid
    rw [greedyRun_pos_keys, greedyRun_neg_keys] at heq
    show applyAll (balFun m) (greedyRun
      ((positiveEntries m).length + (negativeEntries m).length)
      { pos := positiveEntries m, neg := negativeEntries m,
        i := 0, j := 0, acc := [] }).acc pid = 0
    rw [heq]
    by_cases hmem : pid ∈ (positiveEntries m).map Prod.fst ∨
        pid ∈ (negativeEntries m).map Prod.fst
    · rw [if_pos hmem]
    · rw [if_neg hmem]
      push_neg at hmem
      exact balFun_zero_of_not_posneg m hnodup pid hmem.1 hmem.2

end ZInvariant

section PairsDistinct

theorem nodup_get_not_mem_drop {α : Type} (l : List α) (hnodup : l.Nodup)
    {k : ℕ} (hk : k < l.length) : l.get ⟨k, hk⟩ ∉ l.drop (k + 1) := by
  intro hmem
  have hsub : (l.drop k).Nodup := hnodup.sublist (List.drop_sublist k l)
  rw [List.drop_eq_getElem_cons hk] at hsub
  exact (List.nodup_cons.1 hsub).1 (by simpa using hmem)

theorem mem_drop_mono {α : Type} {l : List α} {a : α} {n1 n2 : ℕ}
    (hmn : n1 ≤ n2) (h : a ∈ l.drop n2) : a ∈ l.drop n1 := by
  obtain ⟨g, rfl⟩ := Nat.exists_eq_add_of_le hmn
  have h2 : a ∈ (l.drop n1).drop g := by
    rw [List.drop_drop]
    exact h
  exact List.mem_of_mem_drop h2

theorem greedy_gen_pairs (fuel : ℕ) (st : GreedyState)
    (hP : (st.pos.map Prod.fst).Nodup) (hN : (st.neg.map Prod.fst).Nodup) :
    ∃ t, (greedyRun fuel st).acc = st.acc ++ t ∧
      t.Pairwise (fun a b => ¬(a.from_ = b.from_ ∧ a.to_ = b.to_)) ∧
      ∀ s ∈ t, s.to_ ∈ (st.pos.map Prod.fst).drop st.i ∧
        s.from_ ∈ (st.neg.map Prod.fst).drop st.j := by
  induction fuel generalizing st with
  | zero => exact ⟨[], by simp [greedyRun], List.Pairwise.nil, by simp⟩
  | succ fuel ih =>
    by_cases hc : st.i < st.pos.length ∧ st.j < st.neg.length
    · obtain ⟨hi, hj⟩ := hc
      rw [greedyRun_succ_cond _ _ ⟨hi, hj⟩]
      have hkeysP : (greedyStep st).pos.map Prod.fst = st.pos.map Prod.fst :=
        by
          rw [greedyStep_pos st hi hj]
          exact map_fst_set _ hi _
      have hkeysN : (greedyStep st).neg.map Prod.fst = st.neg.map Prod.fst :=
        by
          rw [greedyStep_neg st hi hj]
          exact map_fst_set _ hj _
      have hP2 : ((greedyStep st).pos.map Prod.fst).Nodup := by
        rw [hkeysP]
        exact hP
      have hN2 : ((greedyStep st).neg.map Prod.fst).Nodup := by
        rw [hkeysN]
        exact hN
      obtain ⟨t, ht, hpw, hmem⟩ := ih (greedyStep st) hP2 hN2
      have hmi : st.i < (st.pos.map Prod.fst).length := by simpa using hi
      have hmj : st.j < (st.neg.map Prod.fst).length := by simpa using hj
      refine ⟨⟨(st.neg.get ⟨st.j, hj⟩).1, (st.pos.get ⟨st.i, hi⟩).1,
        jsRound2 (min (st.pos.get ⟨st.i, hi⟩).2
          (-(st.neg.get ⟨st.j, hj⟩).2)), none⟩ :: t, ?_, ?_, ?_⟩
      · rw [ht, greedyStep_acc st hi hj, List.append_assoc]
        rfl
      · refine List.Pairwise.cons ?_ hpw
        intro s hs
        obtain ⟨hto, hfrom⟩ := hmem s hs
        rw [hkeysP] at hto
        rw [hkeysN] at hfrom
        rintro ⟨h1, h2⟩
        have h1a : (st.neg.get ⟨st.j, hj⟩).1 = s.from_ := h1
        have h2a : (st.pos.get ⟨st.i, hi⟩).1 = s.to_ := h2
        rcases greedyStep_advance st hi hj with hadv | hadv
        · rw [hadv] at hto
          refine nodup_get_not_mem_drop (st.pos.map Prod.fst) hP hmi ?_
          have hgm : (st.pos.map Prod.fst).get ⟨st.i, hmi⟩ =
              (st.pos.get ⟨st.i, hi⟩).1 := by
            simp
          rw [hgm, h2a]
          exact hto
        · rw [hadv] at hfrom
          refine nodup_get_not_mem_drop (st.neg.map Prod.fst) hN hmj ?_
          have hgm : (st.neg.map Prod.fst).get ⟨st.j, hmj⟩ =
              (st.neg.get ⟨st.j, hj⟩).1 := by
            simp
          rw [hgm, h1a]
          exact hfrom
      · intro s hs
        rcases List.mem_cons.1 hs with rfl | hs2
        · constructor
          · rw [List.drop_eq_getElem_cons hmi]
            exact List.mem_cons.2 (Or.inl (by simp))
          · rw [List.drop_eq_getElem_cons hmj]
            exact List.mem_cons.2 (Or.inl (by simp))
        · obtain ⟨hto, hfrom⟩ := hmem s hs2
          rw [hkeysP] at hto
          rw [hkeysN] at hfrom
          exact ⟨mem_drop_mono (greedyStep_i_mono st) hto,
            mem_drop_mono (greedyStep_j_mono st) hfrom⟩
    · rw [greedyRun_not_cond _ _ hc]
      exact ⟨[], by simp, List.Pairwise.nil, by simp⟩

theorem originalSettlements_pairs (m : BalanceRec)
    (hnodup : (keysOf m).Nodup) :
    (originalSettlements m).Pairwise
      (fun a b => ¬(a.from_ = b.from_ ∧ a.to_ = b.to_)) := by
  obtain ⟨t, ht, hpw, _⟩ := greedy_gen_pairs
    ((positiveEntries m).length + (negativeEntries m).length)
    { pos := positiveEntries m, neg := negativeEntries m,
      i := 0, j := 0, acc := [] }
    (nodup_keys_filterEntries jsGtZero m hnodup)
    (nodup_keys_filterEntries jsLtZero m hnodup)
  show ((greedyRun ((positiveEntries m).length + (negativeEntries m).length)
    { pos := positiveEntries m, neg := negativeEntries m,
      i := 0, j := 0, acc := [] }).acc).Pairwise _
  rw [ht]
  simpa using hpw

theorem pairwise_countP_le_one (l : List Settlement)
    (h : l.Pairwise (fun a b => ¬(a.from_ = b.from_ ∧ a.to_ = b.to_)))
    (x y : String) :
    l.countP (fun s => decide (s.from_ = x ∧ s.to_ = y)) ≤ 1 := by
  induction l with
  | nil => simp
  | cons a l ih =>
    obtain ⟨ha, hl⟩ := List.pairwise_cons.1 h
    rw [List.countP_cons]
    by_cases hm : a.from_ = x ∧ a.to_ = y
    · have hzero : l.countP (fun s => decide (s.from_ = x ∧ s.to_ = y)) = 0 :=
        by
          rw [List.countP_eq_zero]
          intro b hb
          simp only [decide_eq_true_eq]
          rintro ⟨hb1, hb2⟩
          exact ha b hb ⟨hm.1.trans hb1.symm, hm.2.trans hb2.symm⟩
      rw [hzero]
      simp [hm]
    · simp only [decide_eq_true_eq, hm, if_false]
      simpa using ih hl

end PairsDistinct

section NodupKeys

theorem keysOf_nodup_consFold (split : ℚ) (cs : List String)
    (b : BalanceRec) (h : (keysOf b).Nodup) :
    (keysOf (cs.foldl
      (fun acc cId => setVal acc cId (subNaN (getVal acc cId) split))
      b)).Nodup := by
  induction cs generalizing b with
  | nil => exact h
  | cons c cs ih => exact ih _ (nodup_keysOf_setVal _ _ _ h)

theorem keysOf_nodup_applyExpense (b : BalanceRec) (e : Expense)
    (h : (keysOf b).Nodup) : (keysOf (applyExpense b e)).Nodup :=
  nodup_keysOf_setVal _ _ _ (keysOf_nodup_consFold _ _ _ h)

theorem keysOf_nodup_applyPayment (b : BalanceRec) (p : Payment)
    (h : (keysOf b).Nodup) : (keysOf (applyPayment b p)).Nodup :=
  nodup_keysOf_setVal _ _ _ (nodup_keysOf_setVal _ _ _ h)

theorem keysOf_nodup_initBalances (parts : List String) :
    (keysOf (initBalances parts)).Nodup := by
  suffices h : ∀ (l : List String) (b : BalanceRec), (keysOf b).Nodup →
      (keysOf (l.foldl (fun b pid => setVal b pid (some 0)) b)).Nodup by
    exact h parts [] (by simp [keysOf])
  intro l
  induction l with
  | nil => exact fun b hb => hb
  | cons p l ih => exact fun b hb => ih _ (nodup_keysOf_setVal _ _ _ hb)

theorem keysOf_nodup_expenseBalances (parts : List String)
    (exps : List Expense) : (keysOf (expenseBalances parts exps)).Nodup := by
  suffices h : ∀ (es : List Expense) (b : BalanceRec), (keysOf b).Nodup →
      (keysOf (es.foldl applyExpense b)).Nodup by
    exact h exps _ (keysOf_nodup_initBalances parts)
  intro es
  induction es with
  | nil => exact fun b hb => hb
  | cons e es ih => exact fun b hb => ih _ (keysOf_nodup_applyExpense _ _ hb)

theorem keysOf_nodup_computeBalances (parts : List String)
    (exps : List Expense) (pays : List Payment) :
    (keysOf (computeBalances parts exps pays)).Nodup := by
  suffices h : ∀ (ps : List Payment) (b : BalanceRec), (keysOf b).Nodup →
      (keysOf (ps.foldl applyPayment b)).Nodup by
    exact h pays _ (keysOf_nodup_expenseBalances parts exps)
  intro ps
  induction ps with
  | nil => exact fun b hb => hb
  | cons p ps ih => exact fun b hb => ih _ (keysOf_nodup_applyPayment _ _ hb)

end NodupKeys

section ReconcileLemmas

theorem greedyStep_acc_unconditional (st : GreedyState) :
    ∃ s : Settlement, (greedyStep st).acc = st.acc ++ [s] ∧
      (∃ q : ℚ, s.amount = jsRound2 q) ∧ s.payment_id = none := by
  refine ⟨⟨(st.neg.getD st.j ("", 0)).1, (st.pos.getD st.i ("", 0)).1,
    jsRound2 (min (st.pos.getD st.i ("", 0)).2
      (-(st.neg.getD st.j ("", 0)).2)), none⟩, ?_, ⟨_, rfl⟩, rfl⟩
  simp [greedyStep]

theorem greedyRun_acc_round (fuel : ℕ) (st : GreedyState)
    (h : ∀ s ∈ st.acc, (∃ q : ℚ, s.amount = jsRound2 q) ∧
      s.payment_id = none) :
    ∀ s ∈ (greedyRun fuel st).acc,
      (∃ q : ℚ, s.amount = jsRound2 q) ∧ s.payment_id = none := by
  induction fuel generalizing st with
  | zero => exact h
  | succ fuel ih =>
    by_cases hc : st.i < st.pos.length ∧ st.j < st.neg.length
    · rw [greedyRun_succ_cond _ _ hc]
      refine ih _ ?_
      obtain ⟨s2, hs2, hq, hn⟩ := greedyStep_acc_unconditional st
      rw [hs2]
      intro s hs
      rcases List.mem_append.1 hs with h1 | h1
      · exact h s h1
      · simp only [List.mem_singleton] at h1
        subst h1
        exact ⟨hq, hn⟩
    · rw [greedyRun_not_cond _ _ hc]
      exact h

theorem originalSettlements_round (m : BalanceRec) :
    ∀ s ∈ originalSettlements m,
      IsCent s.amount ∧ s.payment_id = none := by
  intro s hs
  have := greedyRun_acc_round
    ((positiveEntries m).length + (negativeEntries m).length)
    { pos := positiveEntries m, neg := negativeEntries m,
      i := 0, j := 0, acc := [] } (by simp) s hs
  obtain ⟨⟨q, hq⟩, hn⟩ := this
  exact ⟨hq ▸ isCent_jsRound2 q, hn⟩

theorem reconcileStep_no_payments (acc : List Settlement) (s : Settlement)
    (hcent : IsCent s.amount) (hgt : 1 / 100 < s.amount)
    (hpid : s.payment_id = none) :
    reconcileStep [] acc s = acc ++ [s] := by
  show (if 1 / 100 < s.amount then
    acc ++ [⟨s.from_, s.to_, jsRound2 s.amount, none⟩] else acc) = acc ++ [s]
  rw [if_pos hgt]
  have heq : (⟨s.from_, s.to_, jsRound2 s.amount, none⟩ : Settlement) = s := by
    have h2 : jsRound2 s.amount = s.amount := hcent
    cases s with
    | mk f t a pd =>
      simp only at hpid h2 ⊢
      rw [hpid, h2]
  rw [heq]

theorem reconcile_no_payments (sug : List Settlement)
    (h : ∀ s ∈ sug, IsCent s.amount ∧ 1 / 100 < s.amount ∧
      s.payment_id = none) : reconcile sug [] = sug := by
  suffices h2 : ∀ (l : List Settlement), (∀ s ∈ l, IsCent s.amount ∧
      1 / 100 < s.amount ∧ s.payment_id = none) →
      ∀ acc, l.foldl (reconcileStep []) acc = acc ++ l by
    simpa using h2 sug h []
  intro l
  induction l with
  | nil => intro _ acc; simp
  | cons s l ih =>
    intro hl acc
    obtain ⟨h1, h2, h3⟩ := hl s (List.mem_cons_self _ _)
    rw [List.foldl_cons, reconcileStep_no_payments acc s h1 h2 h3,
      ih (fun x hx => hl x (List.mem_cons_of_mem _ hx)) _]
    simp

theorem innerFold_eq_spec (s : Settlement) (rel : List Payment)
    (hrel : ∀ p ∈ rel, IsCent p.amount) :
    ∀ (acc : List Settlement) (rem : ℚ), IsCent rem →
    (rel.foldl (fun (st : List Settlement × ℚ) p =>
        let paidAmount := min st.2 p.amount
        if 0 < paidAmount then
          (st.1 ++ [⟨s.from_, s.to_, jsRound2 paidAmount, some p.id⟩],
            st.2 - paidAmount)
        else st) (acc, rem) =
      rel.foldl (fun (st : List Settlement × ℚ) p =>
        let consumed := min st.2 p.amount
        if 0 < consumed then
          (st.1 ++ [⟨s.from_, s.to_, consumed, some p.id⟩],
            st.2 - consumed)
        else st) (acc, rem)) ∧
      IsCent (rel.foldl (fun (st : List Settlement × ℚ) p =>
        let paidAmount := min st.2 p.amount
        if 0 < paidAmount then
          (st.1 ++ [⟨s.from_, s.to_, jsRound2 paidAmount, some p.id⟩],
            st.2 - paidAmount)
        else st) (acc, rem)).2 := by
  induction rel with
  | nil => exact fun acc rem hrem => ⟨rfl, hrem⟩
  | cons p rel ih =>
    intro acc rem hrem
    have hpc : IsCent p.amount := hrel p (List.mem_cons_self _ _)
    have hmin : IsCent (min rem p.amount) := hrem.min hpc
    have hround : jsRound2 (min rem p.amount) = min rem p.amount := hmin
    have hrel2 : ∀ q ∈ rel, IsCent q.amount :=
      fun q hq => hrel q (List.mem_cons_of_mem _ hq)
    rw [List.foldl_cons, List.foldl_cons]
    by_cases hc : 0 < min rem p.amount
    · simp only [if_pos hc, hround]
      exact ih hrel2 _ _ (hrem.sub hmin)
    · simp only [if_neg hc]
      exact ih hrel2 _ _ hrem

theorem reconcileStep_eq_spec (pays : List Payment) (acc : List Settlement)
    (s : Settlement) (hcent : IsCent s.amount)
    (hpc : ∀ p ∈ pays, IsCent p.amount) :
    reconcileStep pays acc s = reconcileSpecStep pays acc s := by
  have hrel : ∀ p ∈ pays.filter
      (fun p => decide (p.from_participant = s.from_) &&
        decide (p.to_participant = s.to_)), IsCent p.amount :=
    fun p hp => hpc p (List.mem_of_mem_filter hp)
  obtain ⟨heq, hcent2⟩ := innerFold_eq_spec s _ hrel acc s.amount hcent
  show (if 1 / 100 < (List.foldl _ (acc, s.amount) _).2 then _ else _) = _
  rw [reconcileSpecStep]
  simp only [← heq]
  have hround : jsRound2 (List.foldl (fun (st : List Settlement × ℚ) p =>
      let paidAmount := min st.2 p.amount
      if 0 < paidAmount then
        (st.1 ++ [⟨s.from_, s.to_, jsRound2 paidAmount, some p.id⟩],
          st.2 - paidAmount)
      else st) (acc, s.amount) (pays.filter
        (fun p => decide (p.from_participant = s.from_) &&
          decide (p.to_participant = s.to_)))).2 =
      (List.foldl (fun (st : List Settlement × ℚ) p =>
        let paidAmount := min st.2 p.amount
        if 0 < paidAmount then
          (st.1 ++ [⟨s.from_, s.to_, jsRound2 paidAmount, some p.id⟩],
            st.2 - paidAmount)
        else st) (acc, s.amount) (pays.filter
          (fun p => decide (p.from_participant = s.from_) &&
            decide (p.to_participant = s.to_)))).2 := hcent2
  rw [hround]

theorem reconcile_eq_spec (sug : List Settlement) (pays : List Payment)
    (hs : ∀ s ∈ sug, IsCent s.amount)
    (hp : ∀ p ∈ pays, IsCent p.amount) :
    reconcile sug pays = reconcileSpec sug pays := by
  suffices h : ∀ (l : List Settlement), (∀ s ∈ l, IsCent s.amount) →
      ∀ acc, l.foldl (reconcileStep pays) acc =
        l.foldl (reconcileSpecStep pays) acc by
    exact h sug hs []
  intro l
  induction l with
  | nil => intro _ _; rfl
  | cons s l ih =>
    intro hl acc
    rw [List.foldl_cons, List.foldl_cons,
      reconcileStep_eq_spec pays acc s (hl s (List.mem_cons_self _ _)) hp]
    exact ih (fun x hx => hl x (List.mem_cons_of_mem _ hx)) _

end ReconcileLemmas

section RefSumLemmas

theorem refSum_append (l1 l2 : List Settlement) (pid : String) :
    refSum (l1 ++ l2) pid = refSum l1 pid + refSum l2 pid := by
  simp [refSum, List.filter_append]

theorem refSum_single (s : Settlement) (pid : String) :
    refSum [s] pid = if s.payment_id = some pid then s.amount else 0 := by
  by_cases h : s.payment_id = some pid <;> simp [refSum, h]

theorem countP_id_le_one (pays : List Payment)
    (h : (pays.map Payment.id).Nodup) (pid : String) :
    pays.countP (fun q => decide (q.id = pid)) ≤ 1 := by
  induction pays with
  | nil => simp
  | cons q pays ih =>
    have h2 : (q.id :: pays.map Payment.id).Nodup := by simpa using h
    obtain ⟨hq, hrest⟩ := List.nodup_cons.1 h2
    rw [List.countP_cons]
    by_cases hqi : q.id = pid
    · have hzero : pays.countP (fun r => decide (r.id = pid)) = 0 := by
        rw [List.countP_eq_zero]
        intro r hr
        simp only [decide_eq_true_eq]
        intro hri
        exact hq ((hri.trans hqi.symm) ▸ List.mem_map_of_mem _ hr)
      rw [hzero]
      simp [hqi]
    · simp only [decide_eq_true_eq, hqi, if_false]
      simpa using ih hrest

theorem countP_tail_le {α : Type} (p : α → Bool) (a : α) (l : List α) :
    l.countP p ≤ (a :: l).countP p := by
  rw [List.countP_cons]
  split <;> omega

theorem innerFold_refSum_zero (s : Settlement) (pid : String)
    (rel : List Payment) :
    ∀ (acc : List Settlement) (rem : ℚ), (∀ p ∈ rel, p.id ≠ pid) →
    refSum (rel.foldl (fun (st : List Settlement × ℚ) p =>
      let paidAmount := min st.2 p.amount
      if 0 < paidAmount then
        (st.1 ++ [⟨s.from_, s.to_, jsRound2 paidAmount, some p.id⟩],
          st.2 - paidAmount)
      else st) (acc, rem)).1 pid = refSum acc pid := by
  induction rel with
  | nil => exact fun acc rem _ => rfl
  | cons p rel ih =>
    intro acc rem hne
    rw [List.foldl_cons]
    by_cases hc : 0 < min rem p.amount
    · simp only [if_pos hc]
      rw [ih _ _ (fun q hq => hne q (List.mem_cons_of_mem _ hq)),
        refSum_append, refSum_single]
      have hnp : ¬ ((⟨s.from_, s.to_, jsRound2 (min rem p.amount),
          some p.id⟩ : Settlement).payment_id = some pid) := by
        simp [hne p (List.mem_cons_self _ _)]
      rw [if_neg hnp]
      ring
    · simp only [if_neg hc]
      exact ih _ _ (fun q hq => hne q (List.mem_cons_of_mem _ hq))

theorem innerFold_refSum_le (s : Settlement) (pid : String) (A : ℚ)
    (hA : 0 ≤ A) (rel : List Payment) :
    ∀ (acc : List Settlement) (rem : ℚ), IsCent rem →
    (∀ p ∈ rel, IsCent p.amount) →
    rel.countP (fun p => decide (p.id = pid)) ≤ 1 →
    (∀ p ∈ rel, p.id = pid → p.amount ≤ A) →
    refSum (rel.foldl (fun (st : List Settlement × ℚ) p =>
      let paidAmount := min st.2 p.amount
      if 0 < paidAmount then
        (st.1 ++ [⟨s.from_, s.to_, jsRound2 paidAmount, some p.id⟩],
          st.2 - paidAmount)
      else st) (acc, rem)).1 pid ≤ refSum acc pid + A := by
  induction rel with
  | nil =>
    intro acc rem _ _ _ _
    show refSum acc pid ≤ refSum acc pid + A
    linarith
  | cons p rel ih =>
    intro acc rem hrem hcent hcount hbound
    have hpc : IsCent p.amount := hcent p (List.mem_cons_self _ _)
    have hmin : IsCent (min rem p.amount) := hrem.min hpc
    have hround : jsRound2 (min rem p.amount) = min rem p.amount := hmin
    have hcent2 : ∀ q ∈ rel, IsCent q.amount :=
      fun q hq => hcent q (List.mem_cons_of_mem _ hq)
    have hbound2 : ∀ q ∈ rel, q.id = pid → q.amount ≤ A :=
      fun q hq => hbound q (List.mem_cons_of_mem _ hq)
    rw [List.foldl_cons]
    by_cases hc : 0 < min rem p.amount
    · simp only [if_pos hc]
      by_cases hpi : p.id = pid
      · have hzero : rel.countP (fun q => decide (q.id = pid)) = 0 := by
          have hd : ((fun q => decide (q.id = pid)) p) = true := by
            simp [hpi]
          rw [List.countP_cons, if_pos hd] at hcount
          omega
        have hno : ∀ q ∈ rel, q.id ≠ pid := by
          intro q hq hqe
          have := List.countP_eq_zero.1 hzero q hq
          simp [hqe] at this
        rw [innerFold_refSum_zero s pid rel _ _ hno, refSum_append,
          refSum_single]
        have hsome : (⟨s.from_, s.to_, jsRound2 (min rem p.amount),
            some p.id⟩ : Settlement).payment_id = some pid := by
          simp [hpi]
        rw [if_pos hsome, hround]
        have h1 : min rem p.amount ≤ p.amount := min_le_right _ _
        have h2 : p.amount ≤ A := hbound p (List.mem_cons_self _ _) hpi
        show refSum acc pid + min rem p.amount ≤ refSum acc pid + A
        linarith
      · have hle := ih (acc ++ [⟨s.from_, s.to_,
          jsRound2 (min rem p.amount), some p.id⟩]) (rem - min rem p.amount)
          (hrem.sub hmin) hcent2
          (le_trans (countP_tail_le _ _ _) hcount)
          hbound2
        refine le_trans hle ?_
        rw [refSum_append, refSum_single]
        have hnp : ¬ ((⟨s.from_, s.to_, jsRound2 (min rem p.amount),
            some p.id⟩ : Settlement).payment_id = some pid) := by
          simp [hpi]
        rw [if_neg hnp]
        simp
    · simp only [if_neg hc]
      exact ih acc rem hrem hcent2
        (le_trans (countP_tail_le _ _ _) hcount)
        hbound2

theorem reconcileStep_unfold (pays : List Payment) (acc : List Settlement)
    (s : Settlement) :
    reconcileStep pays acc s =
      if 1 / 100 < ((pays.filter
        (fun p => decide (p.from_participant = s.from_) &&
          decide (p.to_participant = s.to_))).foldl
        (fun (st : List Settlement × ℚ) p =>
          let paidAmount := min st.2 p.amount
          if 0 < paidAmount then
            (st.1 ++ [⟨s.from_, s.to_, jsRound2 paidAmount, some p.id⟩],
              st.2 - paidAmount)
          else st) (acc, s.amount)).2
      then ((pays.filter
        (fun p => decide (p.from_participant = s.from_) &&
          decide (p.to_participant = s.to_))).foldl
        (fun (st : List Settlement × ℚ) p =>
          let paidAmount := min st.2 p.amount
          if 0 < paidAmount then
            (st.1 ++ [⟨s.from_, s.to_, jsRound2 paidAmount, some p.id⟩],
              st.2 - paidAmount)
          else st) (acc, s.amount)).1 ++
        [⟨s.from_, s.to_, jsRound2 ((pays.filter
          (fun p => decide (p.from_participant = s.from_) &&
            decide (p.to_participant = s.to_))).foldl
          (fun (st : List Settlement × ℚ) p =>
            let paidAmount := min st.2 p.amount
            if 0 < paidAmount then
              (st.1 ++ [⟨s.from_, s.to_, jsRound2 paidAmount, some p.id⟩],
                st.2 - paidAmount)
            else st) (acc, s.amount)).2, none⟩]
      else ((pays.filter
        (fun p => decide (p.from_participant = s.from_) &&
          decide (p.to_participant = s.to_))).foldl
        (fun (st : List Settlement × ℚ) p =>
          let paidAmount := min st.2 p.amount
          if 0 < paidAmount then
            (st.1 ++ [⟨s.from_, s.to_, jsRound2 paidAmount, some p.id⟩],
              st.2 - paidAmount)
          else st) (acc, s.amount)).1 := rfl

theorem reconcileStep_refSum_eq (pays : List Payment)
    (acc : List Settlement) (s : Settlement) (pid : String)
    (hno : ∀ p ∈ pays.filter
      (fun p => decide (p.from_participant = s.from_) &&
        decide (p.to_participant = s.to_)), p.id ≠ pid) :
    refSum (reconcileStep pays acc s) pid = refSum acc pid := by
  have h1 := innerFold_refSum_zero s pid (pays.filter
    (fun p => decide (p.from_participant = s.from_) &&
      decide (p.to_participant = s.to_))) acc s.amount hno
  rw [reconcileStep_unfold]
  split
  · rw [refSum_append, refSum_single, h1]
    simp
  · exact h1

theorem reconcileStep_refSum_le (pays : List Payment)
    (acc : List Settlement) (s : Settlement) (pid : String) (A : ℚ)
    (hA : 0 ≤ A) (hscent : IsCent s.amount)
    (hpc : ∀ p ∈ pays, IsCent p.amount)
    (hcount : (pays.filter
      (fun p => decide (p.from_participant = s.from_) &&
        decide (p.to_participant = s.to_))).countP
          (fun p => decide (p.id = pid)) ≤ 1)
    (hbound : ∀ p ∈ pays.filter
      (fun p => decide (p.from_participant = s.from_) &&
        decide (p.to_participant = s.to_)), p.id = pid → p.amount ≤ A) :
    refSum (reconcileStep pays acc s) pid ≤ refSum acc pid + A := by
  have hrel : ∀ p ∈ pays.filter
      (fun p => decide (p.from_participant = s.from_) &&
        decide (p.to_participant = s.to_)), IsCent p.amount :=
    fun p hp => hpc p (List.mem_of_mem_filter hp)
  have hle := innerFold_refSum_le s pid A hA (pays.filter
    (fun p => decide (p.from_participant = s.from_) &&
      decide (p.to_participant = s.to_))) acc s.amount hscent hrel hcount
    hbound
  rw [reconcileStep_unfold]
  split
  · rw [refSum_append, refSum_single]
    simpa using hle
  · exact hle

theorem related_no_pid (p : Payment) (pays : List Payment) (s : Settlement)
    (hnodup : (pays.map Payment.id).Nodup) (hmem : p ∈ pays)
    (hm : ¬(s.from_ = p.from_participant ∧ s.to_ = p.to_participant)) :
    ∀ q ∈ pays.filter (fun q => decide (q.from_participant = s.from_) &&
      decide (q.to_participant = s.to_)), q.id ≠ p.id := by
  intro q hq hqe
  have hqp : q = p := List.inj_on_of_nodup_map hnodup
    (List.mem_of_mem_filter hq) hmem hqe
  have hf := List.of_mem_filter hq
  rw [hqp] at hf
  simp only [Bool.and_eq_true, decide_eq_true_eq] at hf
  exact hm ⟨hf.1.symm, hf.2.symm⟩

theorem reconcile_fold_refSum_eq (p : Payment) (pays : List Payment)
    (hnodup : (pays.map Payment.id).Nodup) (hmem : p ∈ pays)
    (sug : List Settlement) :
    ∀ (acc : List Settlement),
    (∀ s ∈ sug, ¬(s.from_ = p.from_participant ∧
      s.to_ = p.to_participant)) →
    refSum (sug.foldl (reconcileStep pays) acc) p.id = refSum acc p.id := by
  induction sug with
  | nil => exact fun acc _ => rfl
  | cons s sug ih =>
    intro acc hno
    rw [List.foldl_cons,
      ih _ (fun x hx => hno x (List.mem_cons_of_mem _ hx)),
      reconcileStep_refSum_eq pays acc s p.id
        (related_no_pid p pays s hnodup hmem
          (hno s (List.mem_cons_self _ _)))]

theorem reconcile_refSum_le (p : Payment) (pays : List Payment)
    (hmem : p ∈ pays) (hnodup : (pays.map Payment.id).Nodup)
    (hpc : ∀ q ∈ pays, IsCent q.amount) (hpos : 0 ≤ p.amount)
    (sug : List Settlement) :
    ∀ (acc : List Settlement),
    (∀ s ∈ sug, IsCent s.amount) →
    sug.countP (fun s => decide (s.from_ = p.from_participant ∧
      s.to_ = p.to_participant)) ≤ 1 →
    refSum (sug.foldl (reconcileStep pays) acc) p.id ≤
      refSum acc p.id + p.amount := by
  induction sug with
  | nil =>
    intro acc _ _
    show refSum acc p.id ≤ refSum acc p.id + p.amount
    linarith
  | cons s sug ih =>
    intro acc hcent hcount
    rw [List.foldl_cons]
    by_cases hm : s.from_ = p.from_participant ∧ s.to_ = p.to_participant
    · have hzero : sug.countP (fun s2 => decide (s2.from_ = p.from_participant
          ∧ s2.to_ = p.to_participant)) = 0 := by
        have hd : ((fun s2 => decide (s2.from_ = p.from_participant ∧
            s2.to_ = p.to_participant)) s) = true := by
          simp [hm.1, hm.2]
        rw [List.countP_cons, if_pos hd] at hcount
        omega
      have hno : ∀ s2 ∈ sug, ¬(s2.from_ = p.from_participant ∧
          s2.to_ = p.to_participant) := by
        intro s2 hs2 hc
        have := List.countP_eq_zero.1 hzero s2 hs2
        simp [hc] at this
      rw [reconcile_fold_refSum_eq p pays hnodup hmem sug _ hno]
      refine reconcileStep_refSum_le pays acc s p.id p.amount hpos
        (hcent s (List.mem_cons_self _ _)) hpc ?_ ?_
      · refine le_trans (List.Sublist.countP_le _ (List.filter_sublist pays))
          ?_
        exact countP_id_le_one pays hnodup p.id
      · intro q hq hqe
        have hqp : q = p := List.inj_on_of_nodup_map hnodup
          (List.mem_of_mem_filter hq) hmem hqe
        rw [hqp]
    · refine le_trans (ih (reconcileStep pays acc s)
        (fun x hx => hcent x (List.mem_cons_of_mem _ hx))
        (le_trans (countP_tail_le _ _ _) hcount)) ?_
      rw [reconcileStep_refSum_eq pays acc s p.id
        (related_no_pid p pays s hnodup hmem hm)]

theorem settlementsRoute_refSum_le (parts : List String)
    (exps : List Expense) (pays : List Payment) (p : Payment)
    (hmem : p ∈ pays) (hnodup : (pays.map Payment.id).Nodup)
    (hpc : ∀ q ∈ pays, IsCent q.amount) (hpos : 0 ≤ p.amount) :
    refSum (settlementsRoute parts exps pays) p.id ≤ p.amount := by
  have hsug := originalSettlements_round (expenseBalances parts exps)
  have hpairs := originalSettlements_pairs _
    (keysOf_nodup_expenseBalances parts exps)
  have hcount := pairwise_countP_le_one _ hpairs p.from_participant
    p.to_participant
  have hle := reconcile_refSum_le p pays hmem hnodup hpc hpos
    (originalSettlements (expenseBalances parts exps)) []
    (fun s hs => (hsug s hs).1) hcount
  calc refSum (settlementsRoute parts exps pays) p.id
      ≤ refSum [] p.id + p.amount := hle
    _ = p.amount := by simp [refSum]

end RefSumLemmas

section FinalHelpers

theorem settlementsRoute_no_payments_zeroing (parts : List String)
    (exps : List Expense)
    (hrefs : ∀ e ∈ exps, e.payer_id ∈ parts ∧ e.consumers ≠ [] ∧
      ∀ c ∈ e.consumers, c ∈ parts)
    (hcent : ∀ kv ∈ expenseBalances parts exps, CentVal kv.2)
    (hamt : ∀ s ∈ originalSettlements (expenseBalances parts exps),
      1 / 100 < s.amount) :
    ∀ pid, applyAll (balFun (computeBalances parts exps []))
      (settlementsRoute parts exps []) pid = 0 := by
  have hnodup := keysOf_nodup_expenseBalances parts exps
  have hsum : totalBal (expenseBalances parts exps) = 0 :=
    (computeBalances_spec parts exps [] ⟨hrefs, by simp⟩).2
  obtain ⟨hgood, hzero⟩ :=
    originalSettlements_zeroing _ hnodup hcent hsum
  have hsug := originalSettlements_round (expenseBalances parts exps)
  have hrec : settlementsRoute parts exps [] =
      originalSettlements (expenseBalances parts exps) := by
    show reconcile _ [] = _
    refine reconcile_no_payments _ ?_
    intro s hs
    exact ⟨(hsug s hs).1, hamt s hs, (hsug s hs).2⟩
  intro pid
  rw [hrec]
  exact hzero pid

theorem innerFold_mem_round (s : Settlement) (rel : List Payment) :
    ∀ (start : List Settlement × ℚ) (x : Settlement),
    x ∈ (rel.foldl (fun (st : List Settlement × ℚ) p =>
      let paidAmount := min st.2 p.amount
      if 0 < paidAmount then
        (st.1 ++ [⟨s.from_, s.to_, jsRound2 paidAmount, some p.id⟩],
          st.2 - paidAmount)
      else st) start).1 →
    x ∈ start.1 ∨ ∃ q : ℚ, x.amount = jsRound2 q := by
  induction rel with
  | nil => exact fun start x hx => Or.inl hx
  | cons p rel ih =>
    intro start x hx
    rw [List.foldl_cons] at hx
    rcases ih _ x hx with h | h
    · by_cases hc : 0 < min start.2 p.amount
      · simp only [if_pos hc] at h
        rcases List.mem_append.1 h with h2 | h2
        · exact Or.inl h2
        · simp only [List.mem_singleton] at h2
          subst h2
          exact Or.inr ⟨_, rfl⟩
      · simp only [if_neg hc] at h
        exact Or.inl h
    · exact Or.inr h

theorem reconcileStep_mem_round (pays : List Payment)
    (acc : List Settlement) (s x : Settlement)
    (hx : x ∈ reconcileStep pays acc s) :
    x ∈ acc ∨ ∃ q : ℚ, x.amount = jsRound2 q := by
  rw [reconcileStep_unfold] at hx
  split at hx
  · rcases List.mem_append.1 hx with h | h
    · exact innerFold_mem_round s _ _ x h
    · simp only [List.mem_singleton] at h
      subst h
      exact Or.inr ⟨_, rfl⟩
  · exact innerFold_mem_round s _ _ x hx

theorem reconcile_mem_round (sug : List Settlement) (pays : List Payment)
    (x : Settlement) (hx : x ∈ reconcile sug pays) :
    ∃ q : ℚ, x.amount = jsRound2 q := by
  suffices h : ∀ (l : List Settlement) (acc : List Settlement),
      (∀ y ∈ acc, ∃ q : ℚ, y.amount = jsRound2 q) →
      ∀ x ∈ l.foldl (reconcileStep pays) acc,
        ∃ q : ℚ, x.amount = jsRound2 q by
    exact h sug [] (by simp) x hx
  intro l
  induction l with
  | nil => exact fun acc hacc x hx => hacc x hx
  | cons s l ih =>
    intro acc hacc x hx
    rw [List.foldl_cons] at hx
    refine ih _ ?_ x hx
    intro y hy
    rcases reconcileStep_mem_round pays acc s y hy with h | h
    · exact hacc y h
    · exact h

end FinalHelpers

section ConcreteEval

theorem eval_balances100 :
    expenseBalances ["A", "B", "C"] [⟨"A", 100, ["A", "B", "C"]⟩] =
      [("A", some (200 / 3)), ("B", some (-100 / 3)),
        ("C", some (-100 / 3))] := by
  simp [expenseBalances, initBalances, applyExpense, setVal, getVal,
    subNaN, addNaN]
  norm_num

theorem eval_bal2 :
    expenseBalances ["A", "B"] [⟨"A", 2, ["A", "B"]⟩] =
      [("A", some 1), ("B", some (-1))] := by
  simp [expenseBalances, initBalances, applyExpense, setVal, getVal,
    subNaN, addNaN]
  norm_num

theorem eval_bal6666 :
    expenseBalances ["A", "B"] [⟨"A", 6666 / 100, ["A", "B"]⟩] =
      [("A", some (3333 / 100)), ("B", some (-3333 / 100))] := by
  simp [expenseBalances, initBalances, applyExpense, setVal, getVal,
    subNaN, addNaN]
  norm_num

theorem eval_pos100 :
    positiveEntries [("A", some ((200 : ℚ) / 3)), ("B", some (-100 / 3)),
      ("C", some (-100 / 3))] = [("A", 200 / 3)] := by
  simp [positiveEntries, jsGtZero]

theorem eval_neg100 :
    negativeEntries [("A", some ((200 : ℚ) / 3)), ("B", some (-100 / 3)),
      ("C", some (-100 / 3))] = [("B", -100 / 3), ("C", -100 / 3)] := by
  simp [negativeEntries, jsLtZero]
  norm_num

theorem eval_pos1 :
    positiveEntries [("A", some (1 : ℚ)), ("B", some (-1))] =
      [("A", 1)] := by
  simp [positiveEntries, jsGtZero]

theorem eval_neg1 :
    negativeEntries [("A", some (1 : ℚ)), ("B", some (-1))] =
      [("B", -1)] := by
  simp [negativeEntries, jsLtZero]

theorem eval_pos250 :
    positiveEntries [("A", some ((1 : ℚ) / 250)), ("B", some (-1 / 250))] =
      [("A", 1 / 250)] := by
  simp [positiveEntries, jsGtZero]

theorem eval_neg250 :
    negativeEntries [("A", some ((1 : ℚ) / 250)), ("B", some (-1 / 250))] =
      [("B", -1 / 250)] := by
  simp [negativeEntries, jsLtZero]
  norm_num

theorem eval_pos3333 :
    positiveEntries [("A", some ((3333 : ℚ) / 100)),
      ("B", some (-3333 / 100))] = [("A", 3333 / 100)] := by
  simp [positiveEntries, jsGtZero]

theorem eval_neg3333 :
    negativeEntries [("A", some ((3333 : ℚ) / 100)),
      ("B", some (-3333 / 100))] = [("B", -3333 / 100)] := by
  simp [negativeEntries, jsLtZero]
  norm_num

theorem eval_step100a :
    greedyStep ⟨[("A", (200 : ℚ) / 3)], [("B", -100 / 3), ("C", -100 / 3)],
      0, 0, []⟩ = ⟨[("A", 100 / 3)], [("B", 0), ("C", -100 / 3)], 0, 1,
      [⟨"B", "A", 3333 / 100, none⟩]⟩ := by
  simp [greedyStep, jsRound2, min_def, abs]
  norm_num [Int.floor_eq_iff]

theorem eval_step100b :
    greedyStep ⟨[("A", (100 : ℚ) / 3)], [("B", 0), ("C", -100 / 3)], 0, 1,
      [⟨"B", "A", 3333 / 100, none⟩]⟩ =
    ⟨[("A", 0)], [("B", 0), ("C", 0)], 1, 2,
      [⟨"B", "A", 3333 / 100, none⟩, ⟨"C", "A", 3333 / 100, none⟩]⟩ := by
  simp [greedyStep, jsRound2, min_def, abs]
  norm_num [Int.floor_eq_iff]

theorem eval_step1 :
    greedyStep ⟨[("A", (1 : ℚ))], [("B", -1)], 0, 0, []⟩ =
      ⟨[("A", 0)], [("B", 0)], 1, 1, [⟨"B", "A", 1, none⟩]⟩ := by
  simp [greedyStep, jsRound2, min_def, abs]
  norm_num [Int.floor_eq_iff]

theorem eval_step250 :
    greedyStep ⟨[("A", (1 : ℚ) / 250)], [("B", -1 / 250)], 0, 0, []⟩ =
      ⟨[("A", 0)], [("B", 0)], 1, 1, [⟨"B", "A", 0, none⟩]⟩ := by
  simp [greedyStep, jsRound2, min_def, abs]
  norm_num [Int.floor_eq_iff]

theorem eval_step3333 :
    greedyStep ⟨[("A", (3333 : ℚ) / 100)], [("B", -3333 / 100)], 0, 0, []⟩ =
      ⟨[("A", 0)], [("B", 0)], 1, 1, [⟨"B", "A", 3333 / 100, none⟩]⟩ := by
  simp [greedyStep, jsRound2, min_def, abs]
  norm_num [Int.floor_eq_iff]

theorem eval_orig100 :
    originalSettlements [("A", some ((200 : ℚ) / 3)), ("B", some (-100 / 3)),
      ("C", some (-100 / 3))] =
      [⟨"B", "A", 3333 / 100, none⟩, ⟨"C", "A", 3333 / 100, none⟩] := by
  simp only [originalSettlements]
  rw [eval_pos100, eval_neg100]
  show (greedyRun (2 + 1)
    ⟨[("A", (200 : ℚ) / 3)], [("B", -100 / 3), ("C", -100 / 3)],
      0, 0, []⟩).acc = _
  rw [greedyRun_succ_cond 2
    ⟨[("A", (200 : ℚ) / 3)], [("B", -100 / 3), ("C", -100 / 3)],
      0, 0, []⟩ (by simp), eval_step100a]
  rw [show (2 : ℕ) = 1 + 1 from rfl]
  rw [greedyRun_succ_cond 1
    ⟨[("A", (100 : ℚ) / 3)], [("B", 0), ("C", -100 / 3)], 0, 1,
      [⟨"B", "A", 3333 / 100, none⟩]⟩ (by simp), eval_step100b]
  rw [greedyRun_not_cond 1
    ⟨[("A", 0)], [("B", 0), ("C", 0)], 1, 2,
      [⟨"B", "A", 3333 / 100, none⟩, ⟨"C", "A", 3333 / 100, none⟩]⟩
    (by simp)]

theorem eval_orig1 :
    originalSettlements [("A", some (1 : ℚ)), ("B", some (-1))] =
      [⟨"B", "A", 1, none⟩] := by
  simp only [originalSettlements]
  rw [eval_pos1, eval_neg1]
  show (greedyRun (1 + 1)
    ⟨[("A", (1 : ℚ))], [("B", -1)], 0, 0, []⟩).acc = _
  rw [greedyRun_succ_cond 1
    ⟨[("A", (1 : ℚ))], [("B", -1)], 0, 0, []⟩ (by simp), eval_step1]
  rw [greedyRun_not_cond 1
    ⟨[("A", 0)], [("B", 0)], 1, 1, [⟨"B", "A", 1, none⟩]⟩ (by simp)]

theorem eval_orig250 :
    originalSettlements [("A", some ((1 : ℚ) / 250)),
      ("B", some (-1 / 250))] = [⟨"B", "A", 0, none⟩] := by
  simp only [originalSettlements]
  rw [eval_pos250, eval_neg250]
  show (greedyRun (1 + 1)
    ⟨[("A", (1 : ℚ) / 250)], [("B", -1 / 250)], 0, 0, []⟩).acc = _
  rw [greedyRun_succ_cond 1
    ⟨[("A", (1 : ℚ) / 250)], [("B", -1 / 250)], 0, 0, []⟩ (by simp),
    eval_step250]
  rw [greedyRun_not_cond 1
    ⟨[("A", 0)], [("B", 0)], 1, 1, [⟨"B", "A", 0, none⟩]⟩ (by simp)]

theorem eval_orig3333 :
    originalSettlements [("A", some ((3333 : ℚ) / 100)),
      ("B", some (-3333 / 100))] = [⟨"B", "A", 3333 / 100, none⟩] := by
  simp only [originalSettlements]
  rw [eval_pos3333, eval_neg3333]
  show (greedyRun (1 + 1)
    ⟨[("A", (3333 : ℚ) / 100)], [("B", -3333 / 100)], 0, 0, []⟩).acc = _
  rw [greedyRun_succ_cond 1
    ⟨[("A", (3333 : ℚ) / 100)], [("B", -3333 / 100)], 0, 0, []⟩ (by simp),
    eval_step3333]
  rw [greedyRun_not_cond 1
    ⟨[("A", 0)], [("B", 0)], 1, 1, [⟨"B", "A", 3333 / 100, none⟩]⟩
    (by simp)]

theorem eval_rec1 :
    reconcile [⟨"B", "A", 1, none⟩] [] = [⟨"B", "A", 1, none⟩] := by
  refine reconcile_no_payments _ ?_
  intro s hs
  rw [List.mem_singleton] at hs
  subst hs
  exact ⟨isCent_iff.2 ⟨100, by norm_num⟩, by norm_num, rfl⟩

theorem eval_rec100 :
    reconcile [⟨"B", "A", 3333 / 100, none⟩, ⟨"C", "A", 3333 / 100, none⟩]
      [] = [⟨"B", "A", 3333 / 100, none⟩, ⟨"C", "A", 3333 / 100, none⟩] := by
  refine reconcile_no_payments _ ?_
  intro s hs
  simp only [List.mem_cons, List.not_mem_nil, or_false] at hs
  rcases hs with rfl | rfl <;>
    exact ⟨isCent_iff.2 ⟨3333, by norm_num⟩, by norm_num, rfl⟩

theorem eval_rec6666 :
    reconcile [⟨"B", "A", 3333 / 100, none⟩] [⟨"p1", "B", "A", 50⟩] =
      [⟨"B", "A", 3333 / 100, some "p1"⟩] := by
  simp [reconcile, reconcileStep, jsRound2, min_def]
  norm_num [Int.floor_eq_iff]

theorem eval_rec_scenario :
    reconcile [⟨"C", "A", 3333 / 100, none⟩] [⟨"p1", "C", "A", 10⟩] =
      [⟨"C", "A", 10, some "p1"⟩, ⟨"C", "A", 2333 / 100, none⟩] := by
  simp [reconcile, reconcileStep, jsRound2, min_def]
  norm_num [Int.floor_eq_iff]

theorem eval_recSpec_scenario :
    reconcileSpec [⟨"C", "A", 3333 / 100, none⟩] [⟨"p1", "C", "A", 10⟩] =
      [⟨"C", "A", 10, some "p1"⟩, ⟨"C", "A", 2333 / 100, none⟩] := by
  simp [reconcileSpec, reconcileSpecStep, min_def]
  norm_num

end ConcreteEval

section Claims

/-- C1 counterexample: the claim says an expense of 100.00 across
consumers [A,B,C] splits into minor-unit shares [33.34, 33.33, 33.33]
giving balances A=+66.66 and B=−33.33. The code divides by the consumer
count with no remainder redistribution, so A ends at 200/3 and B at
−100/3, which are not the claimed two-decimal amounts. -/
theorem c1_counterexample :
    getVal (computeBalances ["A", "B", "C"]
      [⟨"A", 100, ["A", "B", "C"]⟩] []) "A" = some (200 / 3) ∧
    getVal (computeBalances ["A", "B", "C"]
      [⟨"A", 100, ["A", "B", "C"]⟩] []) "B" = some (-100 / 3) ∧
    (200 / 3 : ℚ) ≠ 6666 / 100 ∧ (-100 / 3 : ℚ) ≠ -(3333 / 100) := by
  have h : computeBalances ["A", "B", "C"] [⟨"A", 100, ["A", "B", "C"]⟩] []
      = [("A", some (200 / 3)), ("B", some (-100 / 3)),
        ("C", some (-100 / 3))] := by
    simp [computeBalances, expenseBalances, initBalances, applyExpense,
      applyPayment, setVal, getVal, subNaN, addNaN]
    norm_num
  rw [h]
  refine ⟨by simp [getVal], by simp [getVal], by norm_num, by norm_num⟩

/-- C1 amended: the expense loop deducts the identical share
amount/consumers.length from each consumer occurrence (no minor-unit
remainder distribution), and those equal shares sum exactly to the total
in exact arithmetic; for a single expense each known participant ends with
(payer credit) minus (occurrence count times the equal share). -/
theorem c1_theorem (parts : List String) (e : Expense) (c : String)
    (hc : c ∈ parts) (hne : e.consumers ≠ []) :
    getVal (expenseBalances parts [e]) c =
      some ((if c = e.payer_id then e.amount else 0) -
        (e.consumers.count c : ℚ) *
          (e.amount / (e.consumers.length : ℚ))) ∧
    (e.consumers.length : ℚ) * (e.amount / (e.consumers.length : ℚ)) =
      e.amount := by
  refine ⟨expenseBalances_single parts e hc, ?_⟩
  have hlen : (e.consumers.length : ℚ) ≠ 0 := by
    have h0 : e.consumers.length ≠ 0 := by
      simpa [List.length_eq_zero] using hne
    exact_mod_cast h0
  field_simp

/-- C1 witness: the amended statement instantiated at the spec scenario
expense of 100 paid by A for consumers [A,B,C]. -/
theorem c1_witness :
    ("A" : String) ∈ ["A", "B", "C"] ∧
    (Expense.mk "A" 100 ["A", "B", "C"]).consumers ≠ [] ∧
    (getVal (expenseBalances ["A", "B", "C"]
        [Expense.mk "A" 100 ["A", "B", "C"]]) "A" =
      some ((if "A" = (Expense.mk "A" 100 ["A", "B", "C"]).payer_id
          then (Expense.mk "A" 100 ["A", "B", "C"]).amount else 0) -
        ((Expense.mk "A" 100 ["A", "B", "C"]).consumers.count "A" : ℚ) *
          ((Expense.mk "A" 100 ["A", "B", "C"]).amount /
            ((Expense.mk "A" 100 ["A", "B", "C"]).consumers.length : ℚ))) ∧
      ((Expense.mk "A" 100 ["A", "B", "C"]).consumers.length : ℚ) *
        ((Expense.mk "A" 100 ["A", "B", "C"]).amount /
          ((Expense.mk "A" 100 ["A", "B", "C"]).consumers.length : ℚ)) =
        (Expense.mk "A" 100 ["A", "B", "C"]).amount) :=
  ⟨by decide, by decide,
    c1_theorem ["A", "B", "C"] (Expense.mk "A" 100 ["A", "B", "C"]) "A"
      (by decide) (by decide)⟩

/-- C2: on a snapshot whose expenses and payments reference only known
participants (with non-empty consumer lists), the balance computation
gives every known participant a numeric entry, participants untouched by
any expense or payment stay at exactly 0, and the values sum to exactly
0. -/
theorem c2_theorem (parts : List String) (exps : List Expense)
    (pays : List Payment) (h : RefsKnown parts exps pays) :
    (∀ pid ∈ parts, ∃ q : ℚ,
      getVal (computeBalances parts exps pays) pid = some q) ∧
    (∀ pid ∈ parts,
      (∀ e ∈ exps, pid ≠ e.payer_id ∧ pid ∉ e.consumers) →
      (∀ p ∈ pays, pid ≠ p.from_participant ∧ pid ≠ p.to_participant) →
      getVal (computeBalances parts exps pays) pid = some 0) ∧
    totalBal (computeBalances parts exps pays) = 0 := by
  obtain ⟨hgood, htot⟩ := computeBalances_spec parts exps pays h
  refine ⟨hgood.1, ?_, htot⟩
  intro pid hpid he hp
  have h1 : getVal (computeBalances parts exps pays) pid =
      getVal (initBalances parts) pid := by
    show getVal (pays.foldl applyPayment
      (exps.foldl applyExpense (initBalances parts))) pid = _
    rw [paymentFold_getVal_untouched pays _ hp,
      expenseFold_getVal_untouched exps _ he]
  rw [h1, getVal_init hpid]

/-- C2 witness: the zero-sum and presence statement instantiated at a
snapshot with one expense and one payment. -/
theorem c2_witness :
    RefsKnown ["A", "B", "C"] [⟨"A", 100, ["A", "B"]⟩]
      [⟨"p1", "B", "A", 20⟩] ∧
    ((∀ pid ∈ ["A", "B", "C"], ∃ q : ℚ,
      getVal (computeBalances ["A", "B", "C"] [⟨"A", 100, ["A", "B"]⟩]
        [⟨"p1", "B", "A", 20⟩]) pid = some q) ∧
    (∀ pid ∈ ["A", "B", "C"],
      (∀ e ∈ [(⟨"A", 100, ["A", "B"]⟩ : Expense)],
        pid ≠ e.payer_id ∧ pid ∉ e.consumers) →
      (∀ p ∈ [(⟨"p1", "B", "A", 20⟩ : Payment)],
        pid ≠ p.from_participant ∧ pid ≠ p.to_participant) →
      getVal (computeBalances ["A", "B", "C"] [⟨"A", 100, ["A", "B"]⟩]
        [⟨"p1", "B", "A", 20⟩]) pid = some 0) ∧
    totalBal (computeBalances ["A", "B", "C"] [⟨"A", 100, ["A", "B"]⟩]
      [⟨"p1", "B", "A", 20⟩]) = 0) :=
  ⟨⟨by decide, by decide⟩, c2_theorem ["A", "B", "C"]
    [⟨"A", 100, ["A", "B"]⟩] [⟨"p1", "B", "A", 20⟩] ⟨by decide, by decide⟩⟩

/-- C7 counterexample: the claim says a snapshot referencing an unknown
participant fails with an UnknownParticipant error and no partial balance
update. The code has no such error path: with participant set [A] and an
expense consumed by the unknown id B, the computation completes and
returns a mapping that contains B with a NaN value (modelled as none) and
a fully updated entry for A. -/
theorem c7_counterexample :
    computeBalances ["A"] [⟨"A", 10, ["A", "B"]⟩] [] =
      [("A", some 5), ("B", none)] ∧
    getVal (computeBalances ["A"] [⟨"A", 10, ["A", "B"]⟩] []) "B" = none ∧
    hasKey (computeBalances ["A"] [⟨"A", 10, ["A", "B"]⟩] []) "B" = true := by
  have h : computeBalances ["A"] [⟨"A", 10, ["A", "B"]⟩] [] =
      [("A", some 5), ("B", none)] := by
    simp [computeBalances, expenseBalances, initBalances, applyExpense,
      applyPayment, setVal, getVal, subNaN, addNaN]
    norm_num
  refine ⟨h, ?_, ?_⟩ <;> rw [h]
  · simp [getVal]
  · simp [hasKey]

/-- C7 amended: an unknown id referenced by an expense or payment does
not raise an error; the balance computation completes, the unknown id is
inserted into the returned mapping with a NaN value, and every known
participant still receives an entry. -/
theorem c7_theorem (parts : List String) (exps : List Expense)
    (pays : List Payment) (u : String) (hu : u ∉ parts)
    (href : (∃ e ∈ exps, u = e.payer_id ∨ u ∈ e.consumers) ∨
      ∃ p ∈ pays, u = p.from_participant ∨ u = p.to_participant) :
    getVal (computeBalances parts exps pays) u = none ∧
    hasKey (computeBalances parts exps pays) u = true ∧
    ∀ pid ∈ parts, hasKey (computeBalances parts exps pays) pid = true := by
  refine ⟨getVal_none_computeBalances parts exps pays hu,
    hasKey_computeBalances_of_ref parts exps pays href, ?_⟩
  intro pid hpid
  exact hasKey_paymentFold_mono pays _ (hasKey_expenseFold_mono exps _
    ((init_hasKey parts pid).2 hpid))

/-- C7 witness: the amended statement instantiated at the scenario with
one unknown consumer id. -/
theorem c7_witness :
    ("B" : String) ∉ ["A"] ∧
    ((∃ e ∈ [(⟨"A", 10, ["A", "B"]⟩ : Expense)],
      "B" = e.payer_id ∨ "B" ∈ e.consumers) ∨
      ∃ p ∈ ([] : List Payment),
        "B" = p.from_participant ∨ "B" = p.to_participant) ∧
    (getVal (computeBalances ["A"] [⟨"A", 10, ["A", "B"]⟩] []) "B" = none ∧
    hasKey (computeBalances ["A"] [⟨"A", 10, ["A", "B"]⟩] []) "B" = true ∧
    ∀ pid ∈ ["A"],
      hasKey (computeBalances ["A"] [⟨"A", 10, ["A", "B"]⟩] []) pid =
        true) :=
  ⟨by decide, by decide,
    c7_theorem ["A"] [⟨"A", 10, ["A", "B"]⟩] [] "B" (by decide) (by decide)⟩

/-- C3 counterexample: the claim says applying every emitted Settlement to
the final balances drives every balance to 0. With a single expense of 100
split across [A, B, C], the emitted settlements are two transfers of 33.33
(the greedy loop rounds each amount to two decimals), and applying them
leaves A at 1/150 of a unit, not 0. -/
theorem c3_counterexample :
    settlementsRoute ["A", "B", "C"] [⟨"A", 100, ["A", "B", "C"]⟩] [] =
      [⟨"B", "A", 3333 / 100, none⟩, ⟨"C", "A", 3333 / 100, none⟩] ∧
    applyAll (balFun (computeBalances ["A", "B", "C"]
        [⟨"A", 100, ["A", "B", "C"]⟩] []))
      (settlementsRoute ["A", "B", "C"] [⟨"A", 100, ["A", "B", "C"]⟩] [])
      "A" = 1 / 150 ∧
    (1 / 150 : ℚ) ≠ 0 := by
  have hroute : settlementsRoute ["A", "B", "C"]
      [⟨"A", 100, ["A", "B", "C"]⟩] [] =
      [⟨"B", "A", 3333 / 100, none⟩, ⟨"C", "A", 3333 / 100, none⟩] := by
    show reconcile (originalSettlements (expenseBalances ["A", "B", "C"]
      [⟨"A", 100, ["A", "B", "C"]⟩])) [] = _
    rw [eval_balances100, eval_orig100, eval_rec100]
  have hcb : computeBalances ["A", "B", "C"] [⟨"A", 100, ["A", "B", "C"]⟩]
      [] = expenseBalances ["A", "B", "C"] [⟨"A", 100, ["A", "B", "C"]⟩] :=
    rfl
  refine ⟨hroute, ?_, by norm_num⟩
  rw [hroute, hcb, eval_balances100]
  simp [applyAll, applySettlement, balFun, getVal]
  norm_num

/-- C3 amended: when every expense references known participants, the
expense-only balances are exact two-decimal numbers, and every suggested
settlement exceeds the 0.01 threshold, applying every settlement emitted
for a snapshot without recorded payments drives every balance to exactly
0. -/
theorem c3_theorem (parts : List String) (exps : List Expense)
    (hrefs : ∀ e ∈ exps, e.payer_id ∈ parts ∧ e.consumers ≠ [] ∧
      ∀ c ∈ e.consumers, c ∈ parts)
    (hcent : ∀ kv ∈ expenseBalances parts exps, CentVal kv.2)
    (hamt : ∀ s ∈ originalSettlements (expenseBalances parts exps),
      1 / 100 < s.amount) :
    ∀ pid, applyAll (balFun (computeBalances parts exps []))
      (settlementsRoute parts exps []) pid = 0 :=
  settlementsRoute_no_payments_zeroing parts exps hrefs hcent hamt

/-- C3 witness: the amended statement instantiated at an expense of 2 paid
by A and consumed by [A, B]. -/
theorem c3_witness :
    (∀ e ∈ [(⟨"A", 2, ["A", "B"]⟩ : Expense)], e.payer_id ∈ ["A", "B"] ∧
      e.consumers ≠ [] ∧ ∀ c ∈ e.consumers, c ∈ ["A", "B"]) ∧
    (∀ kv ∈ expenseBalances ["A", "B"] [⟨"A", 2, ["A", "B"]⟩],
      CentVal kv.2) ∧
    (∀ s ∈ originalSettlements (expenseBalances ["A", "B"]
      [⟨"A", 2, ["A", "B"]⟩]), 1 / 100 < s.amount) ∧
    ∀ pid, applyAll (balFun (computeBalances ["A", "B"]
        [⟨"A", 2, ["A", "B"]⟩] []))
      (settlementsRoute ["A", "B"] [⟨"A", 2, ["A", "B"]⟩] []) pid = 0 := by
  have h1 : ∀ e ∈ [(⟨"A", 2, ["A", "B"]⟩ : Expense)],
      e.payer_id ∈ ["A", "B"] ∧ e.consumers ≠ [] ∧
      ∀ c ∈ e.consumers, c ∈ ["A", "B"] := by decide
  have h2 : ∀ kv ∈ expenseBalances ["A", "B"] [⟨"A", 2, ["A", "B"]⟩],
      CentVal kv.2 := by
    rw [eval_bal2]
    intro kv hkv
    simp only [List.mem_cons, List.not_mem_nil, or_false] at hkv
    rcases hkv with rfl | rfl
    · refine ⟨rfl, ?_⟩
      show IsCent (1 : ℚ)
      exact isCent_iff.2 ⟨100, by norm_num⟩
    · refine ⟨rfl, ?_⟩
      show IsCent (-1 : ℚ)
      exact isCent_iff.2 ⟨-100, by norm_num⟩
  have h3 : ∀ s ∈ originalSettlements (expenseBalances ["A", "B"]
      [⟨"A", 2, ["A", "B"]⟩]), 1 / 100 < s.amount := by
    rw [eval_bal2, eval_orig1]
    intro s hs
    rw [List.mem_singleton] at hs
    subst hs
    show (1 : ℚ) / 100 < 1
    norm_num
  exact ⟨h1, h2, h3, c3_theorem ["A", "B"] [⟨"A", 2, ["A", "B"]⟩] h1 h2 h3⟩

/-- C4 counterexample: the claim says the simplifier's amounts are all
strictly positive and applying them zeroes every entry of any input
balances mapping. On the mapping A = 1/250, B = -1/250 (0.004, below half
a cent) the loop emits a single settlement whose rounded amount is 0, and
applying it leaves A at 1/250, not 0. -/
theorem c4_counterexample :
    originalSettlements [("A", some ((1 : ℚ) / 250)),
      ("B", some (-1 / 250))] = [⟨"B", "A", 0, none⟩] ∧
    ¬ (0 : ℚ) < (Settlement.mk "B" "A" 0 none).amount ∧
    applyAll (balFun [("A", some ((1 : ℚ) / 250)), ("B", some (-1 / 250))])
      (originalSettlements [("A", some ((1 : ℚ) / 250)),
        ("B", some (-1 / 250))]) "A" = 1 / 250 ∧
    (1 / 250 : ℚ) ≠ 0 := by
  refine ⟨eval_orig250, ?_, ?_, by norm_num⟩
  · show ¬ (0 : ℚ) < 0
    norm_num
  · rw [eval_orig250]
    simp [applyAll, applySettlement, balFun, getVal]

/-- C4 amended: on a balances mapping with distinct keys whose values are
all exact two-decimal numbers summing to 0, every emitted transaction has
a strictly positive amount (itself an exact two-decimal number) and
applying every transaction drives every entry to exactly 0. -/
theorem c4_theorem (m : BalanceRec) (hnodup : (keysOf m).Nodup)
    (hcent : ∀ kv ∈ m, CentVal kv.2) (hsum : totalBal m = 0) :
    (∀ s ∈ originalSettlements m, 0 < s.amount ∧ IsCent s.amount) ∧
    ∀ pid, applyAll (balFun m) (originalSettlements m) pid = 0 :=
  originalSettlements_zeroing m hnodup hcent hsum

/-- C4 witness: the amended statement instantiated at the mapping
A = 1, B = -1. -/
theorem c4_witness :
    (keysOf [("A", some (1 : ℚ)), ("B", some (-1))]).Nodup ∧
    (∀ kv ∈ [(("A", some (1 : ℚ)) : String × Option ℚ),
      ("B", some (-1))], CentVal kv.2) ∧
    totalBal [("A", some (1 : ℚ)), ("B", some (-1))] = 0 ∧
    ((∀ s ∈ originalSettlements [("A", some (1 : ℚ)), ("B", some (-1))],
      0 < s.amount ∧ IsCent s.amount) ∧
    ∀ pid, applyAll (balFun [("A", some (1 : ℚ)), ("B", some (-1))])
      (originalSettlements [("A", some (1 : ℚ)), ("B", some (-1))]) pid =
      0) := by
  have h1 : (keysOf [("A", some (1 : ℚ)), ("B", some (-1))]).Nodup := by
    decide
  have h2 : ∀ kv ∈ [(("A", some (1 : ℚ)) : String × Option ℚ),
      ("B", some (-1))], CentVal kv.2 := by
    intro kv hkv
    simp only [List.mem_cons, List.not_mem_nil, or_false] at hkv
    rcases hkv with rfl | rfl
    · refine ⟨rfl, ?_⟩
      show IsCent (1 : ℚ)
      exact isCent_iff.2 ⟨100, by norm_num⟩
    · refine ⟨rfl, ?_⟩
      show IsCent (-1 : ℚ)
      exact isCent_iff.2 ⟨-100, by norm_num⟩
  have h3 : totalBal [("A", some (1 : ℚ)), ("B", some (-1))] = 0 := by
    simp [totalBal]
  exact ⟨h1, h2, h3,
    c4_theorem [("A", some (1 : ℚ)), ("B", some (-1))] h1 h2 h3⟩

/-- C5: the payment-matching pass of the settlements route implements
Policy A as specified: on cent-valued recorded payments it coincides with
the reconciliation modelled verbatim from the spec (the greedy suggestions
are always cent-valued, so the per-match rounding in the code is the
identity), and the spec scenario (suggestion C→A of 33.33 with a recorded
payment of 10 from C to A) produces one referenced Settlement of 10 and
one pending Settlement of 23.33 under both the code and the spec model. -/
theorem c5_theorem (parts : List String) (exps : List Expense)
    (pays : List Payment) (hp : ∀ p ∈ pays, IsCent p.amount) :
    settlementsRoute parts exps pays =
      reconcileSpec (originalSettlements (expenseBalances parts exps))
        pays ∧
    reconcile [⟨"C", "A", 3333 / 100, none⟩] [⟨"p1", "C", "A", 10⟩] =
      [⟨"C", "A", 10, some "p1"⟩, ⟨"C", "A", 2333 / 100, none⟩] ∧
    reconcileSpec [⟨"C", "A", 3333 / 100, none⟩] [⟨"p1", "C", "A", 10⟩] =
      [⟨"C", "A", 10, some "p1"⟩, ⟨"C", "A", 2333 / 100, none⟩] := by
  refine ⟨?_, eval_rec_scenario, eval_recSpec_scenario⟩
  exact reconcile_eq_spec _ pays
    (fun s hs => (originalSettlements_round _ s hs).1) hp

/-- C5 witness: the refinement statement instantiated at a snapshot with
one expense and one cent-valued payment. -/
theorem c5_witness :
    (∀ p ∈ [(⟨"p1", "B", "A", 10⟩ : Payment)], IsCent p.amount) ∧
    (settlementsRoute ["A", "B"] [⟨"A", 2, ["A", "B"]⟩]
        [⟨"p1", "B", "A", 10⟩] =
      reconcileSpec (originalSettlements (expenseBalances ["A", "B"]
        [⟨"A", 2, ["A", "B"]⟩])) [⟨"p1", "B", "A", 10⟩] ∧
    reconcile [⟨"C", "A", 3333 / 100, none⟩] [⟨"p1", "C", "A", 10⟩] =
      [⟨"C", "A", 10, some "p1"⟩, ⟨"C", "A", 2333 / 100, none⟩] ∧
    reconcileSpec [⟨"C", "A", 3333 / 100, none⟩] [⟨"p1", "C", "A", 10⟩] =
      [⟨"C", "A", 10, some "p1"⟩, ⟨"C", "A", 2333 / 100, none⟩]) := by
  have hp : ∀ p ∈ [(⟨"p1", "B", "A", 10⟩ : Payment)], IsCent p.amount := by
    intro p hp2
    rw [List.mem_singleton] at hp2
    subst hp2
    show IsCent (10 : ℚ)
    exact isCent_iff.2 ⟨1000, by norm_num⟩
  exact ⟨hp, c5_theorem ["A", "B"] [⟨"A", 2, ["A", "B"]⟩]
    [⟨"p1", "B", "A", 10⟩] hp⟩

/-- C6 counterexample: the claim says every recorded payment's amount is
accounted for exactly once (the referenced settlement amounts sum to the
payment's amount). A payment of 50 from B to A against a suggestion of
33.33 yields a single referenced Settlement of 33.33, so only 33.33 of the
50 is accounted for. -/
theorem c6_counterexample :
    settlementsRoute ["A", "B"] [⟨"A", 6666 / 100, ["A", "B"]⟩]
      [⟨"p1", "B", "A", 50⟩] = [⟨"B", "A", 3333 / 100, some "p1"⟩] ∧
    refSum (settlementsRoute ["A", "B"] [⟨"A", 6666 / 100, ["A", "B"]⟩]
      [⟨"p1", "B", "A", 50⟩]) "p1" = 3333 / 100 ∧
    (3333 / 100 : ℚ) ≠ 50 := by
  have hroute : settlementsRoute ["A", "B"] [⟨"A", 6666 / 100, ["A", "B"]⟩]
      [⟨"p1", "B", "A", 50⟩] = [⟨"B", "A", 3333 / 100, some "p1"⟩] := by
    show reconcile (originalSettlements (expenseBalances ["A", "B"]
      [⟨"A", 6666 / 100, ["A", "B"]⟩])) [⟨"p1", "B", "A", 50⟩] = _
    rw [eval_bal6666, eval_orig3333, eval_rec6666]
  refine ⟨hroute, ?_, by norm_num⟩
  rw [hroute]
  simp [refSum]

/-- C6 amended: for a snapshot whose payments have pairwise-distinct ids
and cent-valued non-negative amounts, the settlement amounts referencing a
given payment sum to at most that payment's amount (a payment is never
double-counted, but it can be only partially accounted for). -/
theorem c6_theorem (parts : List String) (exps : List Expense)
    (pays : List Payment) (p : Payment) (hmem : p ∈ pays)
    (hnodup : (pays.map Payment.id).Nodup)
    (hpc : ∀ q ∈ pays, IsCent q.amount) (hpos : 0 ≤ p.amount) :
    refSum (settlementsRoute parts exps pays) p.id ≤ p.amount :=
  settlementsRoute_refSum_le parts exps pays p hmem hnodup hpc hpos

/-- C6 witness: the amended bound instantiated at the overpaying-payment
scenario. -/
theorem c6_witness :
    ((⟨"p1", "B", "A", 50⟩ : Payment) ∈
      [(⟨"p1", "B", "A", 50⟩ : Payment)]) ∧
    ([(⟨"p1", "B", "A", 50⟩ : Payment)].map Payment.id).Nodup ∧
    (∀ q ∈ [(⟨"p1", "B", "A", 50⟩ : Payment)], IsCent q.amount) ∧
    (0 : ℚ) ≤ (Payment.mk "p1" "B" "A" 50).amount ∧
    refSum (settlementsRoute ["A", "B"] [⟨"A", 6666 / 100, ["A", "B"]⟩]
        [⟨"p1", "B", "A", 50⟩]) (Payment.mk "p1" "B" "A" 50).id ≤
      (Payment.mk "p1" "B" "A" 50).amount := by
  have hmem : (⟨"p1", "B", "A", 50⟩ : Payment) ∈
      [(⟨"p1", "B", "A", 50⟩ : Payment)] := List.mem_singleton.2 rfl
  have hnodup : ([(⟨"p1", "B", "A", 50⟩ : Payment)].map Payment.id).Nodup :=
    by simp
  have hpc : ∀ q ∈ [(⟨"p1", "B", "A", 50⟩ : Payment)], IsCent q.amount := by
    intro q hq
    rw [List.mem_singleton] at hq
    subst hq
    show IsCent (50 : ℚ)
    exact isCent_iff.2 ⟨5000, by norm_num⟩
  have hpos : (0 : ℚ) ≤ (Payment.mk "p1" "B" "A" 50).amount := by
    show (0 : ℚ) ≤ 50
    norm_num
  exact ⟨hmem, hnodup, hpc, hpos,
    c6_theorem ["A", "B"] [⟨"A", 6666 / 100, ["A", "B"]⟩]
      [⟨"p1", "B", "A", 50⟩] _ hmem hnodup hpc hpos⟩

/-- C8 counterexample: the claim says every amount returned at the system
boundary, in particular every value of the balances query, is rounded to
two decimals. The balances route returns the raw division results: with
an expense of 100 over three consumers, A's returned balance is 200/3,
which the rounding idiom would map to 66.67 and which is not a two-decimal
amount. -/
theorem c8_counterexample :
    getVal (computeBalances ["A", "B", "C"] [⟨"A", 100, ["A", "B", "C"]⟩]
      []) "A" = some (200 / 3) ∧
    jsRound2 ((200 : ℚ) / 3) = 6667 / 100 ∧
    ¬ IsCent ((200 : ℚ) / 3) := by
  have hcb : computeBalances ["A", "B", "C"] [⟨"A", 100, ["A", "B", "C"]⟩]
      [] = expenseBalances ["A", "B", "C"] [⟨"A", 100, ["A", "B", "C"]⟩] :=
    rfl
  have hfloor : ⌊(200 : ℚ) / 3 * 100 + 1 / 2⌋ = 6667 := by
    rw [Int.floor_eq_iff]
    norm_num
  have hround : jsRound2 ((200 : ℚ) / 3) = 6667 / 100 := by
    show ((⌊(200 : ℚ) / 3 * 100 + 1 / 2⌋ : ℚ) / 100) = 6667 / 100
    rw [hfloor]
    norm_num
  refine ⟨?_, hround, ?_⟩
  · rw [hcb, eval_balances100]
    simp [getVal]
  · intro h
    have h2 : jsRound2 ((200 : ℚ) / 3) = 200 / 3 := h
    rw [hround] at h2
    norm_num at h2

/-- C8 amended: the settlements boundary does round: every settlement
amount emitted by the settlements route is the image of the rounding idiom
Math.round(x*100)/100 and is therefore an exact two-decimal amount; the
balances route, by contrast, returns unrounded values (see the
counterexample). -/
theorem c8_theorem (parts : List String) (exps : List Expense)
    (pays : List Payment) (x : Settlement)
    (hx : x ∈ settlementsRoute parts exps pays) :
    IsCent x.amount ∧ ∃ q : ℚ, x.amount = jsRound2 q := by
  obtain ⟨q, hq⟩ := reconcile_mem_round
    (originalSettlements (expenseBalances parts exps)) pays x hx
  refine ⟨?_, q, hq⟩
  rw [hq]
  exact isCent_jsRound2 q

/-- C8 witness: the rounding statement instantiated at the settlement
emitted for an expense of 2 split between A and B. -/
theorem c8_witness :
    (⟨"B", "A", 1, none⟩ : Settlement) ∈
      settlementsRoute ["A", "B"] [⟨"A", 2, ["A", "B"]⟩] [] ∧
    (IsCent (Settlement.mk "B" "A" 1 none).amount ∧
      ∃ q : ℚ, (Settlement.mk "B" "A" 1 none).amount = jsRound2 q) := by
  have hroute : settlementsRoute ["A", "B"] [⟨"A", 2, ["A", "B"]⟩] [] =
      [⟨"B", "A", 1, none⟩] := by
    show reconcile (originalSettlements (expenseBalances ["A", "B"]
      [⟨"A", 2, ["A", "B"]⟩])) [] = _
    rw [eval_bal2, eval_orig1, eval_rec1]
  have hmem : (⟨"B", "A", 1, none⟩ : Settlement) ∈
      settlementsRoute ["A", "B"] [⟨"A", 2, ["A", "B"]⟩] [] := by
    rw [hroute]
    exact List.mem_singleton.2 rfl
  exact ⟨hmem, c8_theorem ["A", "B"] [⟨"A", 2, ["A", "B"]⟩] [] _ hmem⟩

/-- C9: the two-pointer loop terminates as claimed: in every iteration the
transacted amount is the minimum of the creditor's remaining value and the
negated debtor's remaining value, so one of the two updated values is
exactly 0 (hence below the 0.01 threshold), at least one cursor strictly
advances, and with fuel covering |positive| + |negative| iterations the
loop reaches a state where one cursor has exhausted its list. -/
theorem c9_theorem (st : GreedyState) (hi : st.i < st.pos.length)
    (hj : st.j < st.neg.length) :
    ((st.pos.getD st.i ("", 0)).2 -
        min (st.pos.getD st.i ("", 0)).2 (-(st.neg.getD st.j ("", 0)).2) =
        0 ∨
      (st.neg.getD st.j ("", 0)).2 +
        min (st.pos.getD st.i ("", 0)).2 (-(st.neg.getD st.j ("", 0)).2) =
        0) ∧
    ((greedyStep st).i = st.i + 1 ∨ (greedyStep st).j = st.j + 1) ∧
    ∀ fuel, st.pos.length + st.neg.length ≤ fuel + st.i + st.j →
      (greedyRun fuel st).pos.length ≤ (greedyRun fuel st).i ∨
        (greedyRun fuel st).neg.length ≤ (greedyRun fuel st).j := by
  refine ⟨?_, greedyStep_advance st hi hj,
    fun fuel h => greedyRun_exhausts fuel st h⟩
  rcases min_choice (st.pos.getD st.i ("", 0)).2
      (-(st.neg.getD st.j ("", 0)).2) with h | h
  · left
    rw [h]
    ring
  · right
    rw [h]
    ring

/-- C9 witness: the termination statement instantiated at the state with
one creditor of 1 and one debtor of -1. -/
theorem c9_witness :
    ((GreedyState.mk [("A", 1)] [("B", -1)] 0 0 []).i <
        (GreedyState.mk [("A", 1)] [("B", -1)] 0 0 []).pos.length) ∧
    ((GreedyState.mk [("A", 1)] [("B", -1)] 0 0 []).j <
        (GreedyState.mk [("A", 1)] [("B", -1)] 0 0 []).neg.length) ∧
    ((((GreedyState.mk [("A", 1)] [("B", -1)] 0 0 []).pos.getD
          (GreedyState.mk [("A", 1)] [("B", -1)] 0 0 []).i ("", 0)).2 -
        min ((GreedyState.mk [("A", 1)] [("B", -1)] 0 0 []).pos.getD
          (GreedyState.mk [("A", 1)] [("B", -1)] 0 0 []).i ("", 0)).2
          (-((GreedyState.mk [("A", 1)] [("B", -1)] 0 0 []).neg.getD
            (GreedyState.mk [("A", 1)] [("B", -1)] 0 0 []).j ("", 0)).2) =
        0 ∨
      ((GreedyState.mk [("A", 1)] [("B", -1)] 0 0 []).neg.getD
          (GreedyState.mk [("A", 1)] [("B", -1)] 0 0 []).j ("", 0)).2 +
        min ((GreedyState.mk [("A", 1)] [("B", -1)] 0 0 []).pos.getD
          (GreedyState.mk [("A", 1)] [("B", -1)] 0 0 []).i ("", 0)).2
          (-((GreedyState.mk [("A", 1)] [("B", -1)] 0 0 []).neg.getD
            (GreedyState.mk [("A", 1)] [("B", -1)] 0 0 []).j ("", 0)).2) =
        0) ∧
    ((greedyStep (GreedyState.mk [("A", 1)] [("B", -1)] 0 0 [])).i =
        (GreedyState.mk [("A", 1)] [("B", -1)] 0 0 []).i + 1 ∨
      (greedyStep (GreedyState.mk [("A", 1)] [("B", -1)] 0 0 [])).j =
        (GreedyState.mk [("A", 1)] [("B", -1)] 0 0 []).j + 1) ∧
    ∀ fuel, (GreedyState.mk [("A", 1)] [("B", -1)] 0 0 []).pos.length +
        (GreedyState.mk [("A", 1)] [("B", -1)] 0 0 []).neg.length ≤
        fuel + (GreedyState.mk [("A", 1)] [("B", -1)] 0 0 []).i +
          (GreedyState.mk [("A", 1)] [("B", -1)] 0 0 []).j →
      (greedyRun fuel
          (GreedyState.mk [("A", 1)] [("B", -1)] 0 0 [])).pos.length ≤
          (greedyRun fuel (GreedyState.mk [("A", 1)] [("B", -1)] 0 0 [])).i ∨
        (greedyRun fuel
            (GreedyState.mk [("A", 1)] [("B", -1)] 0 0 [])).neg.length ≤
          (greedyRun fuel
            (GreedyState.mk [("A", 1)] [("B", -1)] 0 0 [])).j) :=
  ⟨by decide, by decide,
    c9_theorem (GreedyState.mk [("A", 1)] [("B", -1)] 0 0 []) (by decide)
      (by decide)⟩

/-- C10: on a balances record with distinct keys, the greedy output
contains at most one suggested transaction for each ordered (from, to)
pair, and consequently the reconciler's per-pair filter matches each
recorded payment against at most one suggested transaction. -/
theorem c10_theorem (m : BalanceRec) (hnodup : (keysOf m).Nodup) :
    (originalSettlements m).Pairwise
      (fun a b => ¬(a.from_ = b.from_ ∧ a.to_ = b.to_)) ∧
    (∀ x y : String, (originalSettlements m).countP
      (fun s => decide (s.from_ = x ∧ s.to_ = y)) ≤ 1) ∧
    ∀ p : Payment, ((originalSettlements m).filter
      (fun s => decide (p.from_participant = s.from_) &&
        decide (p.to_participant = s.to_))).length ≤ 1 := by
  have hpw := originalSettlements_pairs m hnodup
  refine ⟨hpw, fun x y => pairwise_countP_le_one _ hpw x y, ?_⟩
  intro p
  have h := pairwise_countP_le_one _ hpw p.from_participant
    p.to_participant
  rw [List.countP_eq_length_filter] at h
  calc ((originalSettlements m).filter
      (fun s => decide (p.from_participant = s.from_) &&
        decide (p.to_participant = s.to_))).length
      = ((originalSettlements m).filter
        (fun s => decide (s.from_ = p.from_participant ∧
          s.to_ = p.to_participant))).length := by
        congr 1
        apply List.filter_congr
        intro a _
        simp [eq_comm]
    _ ≤ 1 := h

/-- C10 witness: the pairwise-distinct-pairs statement instantiated at the
mapping A = 1, B = -1. -/
theorem c10_witness :
    (keysOf [("A", some (1 : ℚ)), ("B", some (-1))]).Nodup ∧
    ((originalSettlements [("A", some (1 : ℚ)),
      ("B", some (-1))]).Pairwise
      (fun a b => ¬(a.from_ = b.from_ ∧ a.to_ = b.to_)) ∧
    (∀ x y : String, (originalSettlements [("A", some (1 : ℚ)),
      ("B", some (-1))]).countP
      (fun s => decide (s.from_ = x ∧ s.to_ = y)) ≤ 1) ∧
    ∀ p : Payment, ((originalSettlements [("A", some (1 : ℚ)),
      ("B", some (-1))]).filter
      (fun s => decide (p.from_participant = s.from_) &&
        decide (p.to_participant = s.to_))).length ≤ 1) :=
  ⟨by decide, c10_theorem [("A", some (1 : ℚ)), ("B", some (-1))]
    (by decide)⟩

end Claims

end Sunio
